import Mathlib

/-!
Verification of the install-operation interpreter of an Android OTA payload
extractor.  The development shallowly embeds the extent model and extent
stream (src/extract/extent.rs), the hash verifier, padding copy and
per-operation interpreter (src/extract.rs).  Machine integers (u64/usize)
are modelled as Nat: all arithmetic in the embedded code paths is on byte
counts that the source manipulates without intentional overflow, and `cast`
conversions between u64 and usize are identities on a 64-bit target.
Byte sequences are lists of Nat; in-memory seekable streams (std::io::Cursor
over a byte buffer, and files) are modelled by the `Cursor` structure below.
-/

/-- Byte extent, from src/extract/extent.rs: a half-open range
[start, start+len) on an underlying storage. -/
structure Extent where
  start : Nat
  len : Nat
  deriving DecidableEq

/-- std::io::SeekFrom. -/
inductive SeekFrom where
  | start (pos : Nat)
  | fromEnd (offset : Int)
  | current (offset : Int)
  deriving DecidableEq

/-- The io error kinds the embedded code distinguishes. -/
inductive IoError where
  | invalidInput
  | writeZero
  | other
  deriving DecidableEq

/-- Decidable equality for Except results, used to state concrete runs of
the embedded fallible operations. -/
instance {ε α : Type} [DecidableEq ε] [DecidableEq α] : DecidableEq (Except ε α) := fun a b =>
  match a, b with
  | .ok x, .ok y => if h : x = y then .isTrue (by rw [h]) else .isFalse (by intro hc; cases hc; exact h rfl)
  | .error x, .error y => if h : x = y then .isTrue (by rw [h]) else .isFalse (by intro hc; cases hc; exact h rfl)
  | .ok _, .error _ => .isFalse (by intro hc; cases hc)
  | .error _, .ok _ => .isFalse (by intro hc; cases hc)

/-- calculate_rel from src/extract.rs: resolve a relative seek offset
against a base position, failing (with the resolved signed position) when
the result is negative or before start. -/
def calculate_rel (start pos : Nat) (offset : Int) : Except Int Nat :=
  let absPos : Int := (pos : Int) + offset
  if 0 ≤ absPos ∧ (start : Int) ≤ absPos then .ok absPos.toNat else .error absPos

/-- Overwrite the bytes of data at position pos with buf, zero-filling any
gap when pos is past the end of data and growing the sequence as needed.
This is the effect of a write on a grown byte buffer (a Vec-backed cursor or
a sparse file), the backing stores the extractor writes to. -/
def listWrite (data : List Nat) (pos : Nat) (buf : List Nat) : List Nat :=
  data.take pos ++ List.replicate (pos - data.length) 0 ++ buf ++ data.drop (pos + buf.length)

/-- In-memory seekable byte stream: std::io::Cursor over a byte buffer. -/
structure Cursor where
  data : List Nat
  pos : Nat
  deriving DecidableEq

/-- Read up to n bytes from the cursor position (std::io::Cursor read:
short at end of data, zero-length at or past the end). -/
def Cursor.read (c : Cursor) (n : Nat) : List Nat × Cursor :=
  let chunk := (c.data.drop c.pos).take n
  (chunk, { c with pos := c.pos + chunk.length })

/-- Write buf at the cursor position, growing the backing buffer as needed
(Vec / file semantics); always accepts the whole buffer. -/
def Cursor.write (c : Cursor) (buf : List Nat) : Nat × Cursor :=
  (buf.length, { data := listWrite c.data c.pos buf, pos := c.pos + buf.length })

/-- std::io::Cursor seek: Start sets the position (possibly past the end),
End/Current resolve relatively and fail with InvalidInput when the resolved
position is negative. -/
def Cursor.seek (c : Cursor) (sf : SeekFrom) : (Except IoError Nat) × Cursor :=
  match sf with
  | .start p => (.ok p, { c with pos := p })
  | .fromEnd offset =>
    match calculate_rel 0 c.data.length offset with
    | .ok p => (.ok p, { c with pos := p })
    | .error _ => (.error .invalidInput, c)
  | .current offset =>
    match calculate_rel 0 c.pos offset with
    | .ok p => (.ok p, { c with pos := p })
    | .error _ => (.error .invalidInput, c)

/-- Outer-offset prefix sums, the scan in ExtentStream::new:
extents_outer[i] is the outer starting position of the i-th extent and
extents_outer[extents.len()] the exclusive end of the last one. -/
def outerAux (acc : Nat) : List Extent → List Nat
  | [] => []
  | e :: rest => (acc + e.len) :: outerAux (acc + e.len) rest

/-- outer offsets of an extent list: 0 followed by the running sums of the
extent lengths. -/
def outerOf (l : List Extent) : List Nat :=
  0 :: outerAux 0 l

/-- Sum of the lengths of a list of extents. -/
def sumLens (l : List Extent) : Nat :=
  (l.map (·.len)).sum

/-- ExtentStream from src/extract/extent.rs: a virtual contiguous stream
(outer positions) over the scattered extents of an inner stream.  The inner
stream is the in-memory Cursor model above and the logical cursor is the
pair (extent index, byte offset inside that extent). -/
structure ExtentStream where
  inner : Cursor
  cursor : Nat × Nat
  extents : List Extent
  extents_outer : List Nat
  deriving DecidableEq

/-- NextArea from src/extract/extent.rs. -/
inductive NextArea where
  | currentExtent (rem : Nat)
  | nextExtent (i : Nat)
  | none_
  deriving DecidableEq

/-- Logical (outer) length of the stream: the last outer offset.  The
extents_outer list is never empty, so the default of getLast is dead. -/
def ExtentStream.len (es : ExtentStream) : Nat :=
  es.extents_outer.getLast?.getD 0

/-- Outer position of the logical cursor. -/
def ExtentStream.posOuter (es : ExtentStream) : Nat :=
  es.extents_outer.getD es.cursor.1 0 + es.cursor.2

/-- next_area: what the next read/write should do.  Indexing uses getD with
a dummy extent; the source indexes directly under the invariant that the
cursor extent index is in bounds, and its checked_sub panic branch
(byte index beyond the extent size) is the saturated case of Nat
subtraction here. -/
def ExtentStream.next_area (es : ExtentStream) : NextArea :=
  let extent_i := es.cursor.1
  let byte_i := es.cursor.2
  if extent_i ≥ es.extents.length then .none_
  else
    let extent_len := (es.extents.getD extent_i ⟨0, 0⟩).len
    let extent_rem := extent_len - byte_i
    if extent_rem > 0 then .currentExtent extent_rem
    else if extent_i + 1 < es.extents.length then .nextExtent (extent_i + 1)
    else .none_

/-- set_cursor: set the logical cursor and seek the inner stream to the
matching inner position; returns the outer position.  The inner seek is a
Start seek on the Cursor model and cannot fail. -/
def ExtentStream.set_cursor (es : ExtentStream) (extent_i byte_i : Nat) : Nat × ExtentStream :=
  let es' := { es with cursor := (extent_i, byte_i) }
  let inner' := (es'.inner.seek (.start ((es'.extents.getD extent_i ⟨0, 0⟩).start + byte_i))).2
  (es'.extents_outer.getD extent_i 0 + byte_i, { es' with inner := inner' })

/-- Inner loop of find_cursor_outer: scan extent indices from i, k indices
remaining, for the first extent whose outer range contains outer_pos. -/
def fcoAux (outs : List Nat) (outer_pos : Nat) : Nat → Nat → Option (Nat × Nat)
  | _, 0 => none
  | i, k + 1 =>
    if outs.getD i 0 ≤ outer_pos ∧ outer_pos < outs.getD (i + 1) 0 then
      some (i, outer_pos - outs.getD i 0)
    else
      fcoAux outs outer_pos (i + 1) k

/-- find_cursor_outer: locate the cursor pair for an outer position; at the
very end of the stream the cursor is the end of the last extent. -/
def ExtentStream.find_cursor_outer (es : ExtentStream) (outer_pos : Nat) : Option (Nat × Nat) :=
  match fcoAux es.extents_outer outer_pos 0 es.extents.length with
  | some r => some r
  | none =>
    if outer_pos = es.len then
      some (es.extents.length - 1, (es.extents.getLast?.getD ⟨0, 0⟩).len)
    else
      none

/-- The SeekFrom::End projection loop in ExtentStream::seek: the outer
length that is actually backed by an inner stream of the given length; an
extent wholly inside contributes its length, the first extent straddling
the inner end contributes the bytes up to the inner end, and the scan stops
at the first extent not wholly inside. -/
def inner_len_outer : List Extent → Nat → Nat
  | [], _ => 0
  | e :: rest, innerLen =>
    if e.start + e.len ≤ innerLen then e.len + inner_len_outer rest innerLen
    else if e.start < innerLen then innerLen - e.start
    else 0

/-- Seek to an absolute outer position (the SeekFrom::Start arm of
ExtentStream::seek): fails with InvalidInput past the end of the extents,
state unchanged on failure. -/
def ExtentStream.seekStart (es : ExtentStream) (p : Nat) : (Except IoError Nat) × ExtentStream :=
  match es.find_cursor_outer p with
  | some (extent_i, byte_i) =>
    let r := es.set_cursor extent_i byte_i
    (.ok r.1, r.2)
  | none => (.error .invalidInput, es)

/-- ExtentStream::seek.  The End arm first seeks the inner stream to its
end (which moves the inner position even when the overall seek then fails),
projects the inner length to an outer effective end and caps it with the
logical length; End and Current then resolve relatively and delegate to the
Start arm, failing with InvalidInput on a negative resolved position. -/
def ExtentStream.seek (es : ExtentStream) (sf : SeekFrom) : (Except IoError Nat) × ExtentStream :=
  match sf with
  | .start p => es.seekStart p
  | .fromEnd offset =>
    let innerLen := es.inner.data.length
    let es' := { es with inner := { es.inner with pos := innerLen } }
    let innerEnd := min es'.len (inner_len_outer es'.extents innerLen)
    match calculate_rel 0 innerEnd offset with
    | .ok p => es'.seekStart p
    | .error _ => (.error .invalidInput, es')
  | .current offset =>
    match calculate_rel 0 (es.extents_outer.getD es.cursor.1 0 + es.cursor.2) offset with
    | .ok p => es.seekStart p
    | .error _ => (.error .invalidInput, es)

/-- The read loop of ExtentStream::read, with an explicit fuel counter
standing for the while loop (the wrapper below always passes enough fuel
for the loop to run to completion). -/
def ExtentStream.readLoop : Nat → ExtentStream → Nat → List Nat × ExtentStream
  | 0, es, _ => ([], es)
  | fuel + 1, es, n =>
    if n = 0 then ([], es)
    else
      match es.next_area with
      | .currentExtent rem =>
        let maxLen := min n rem
        let r := es.inner.read maxLen
        let es' := { es with inner := r.2, cursor := (es.cursor.1, es.cursor.2 + r.1.length) }
        if r.1.length = 0 then ([], es')
        else
          let rest := ExtentStream.readLoop fuel es' (n - r.1.length)
          (r.1 ++ rest.1, rest.2)
      | .nextExtent i => ExtentStream.readLoop fuel (es.set_cursor i 0).2 n
      | .none_ => ([], es)

/-- ExtentStream::read for a buffer of n bytes: returns the bytes read.
Each productive loop iteration consumes at least one buffer byte and each
extent transition increases the extent index, so the chosen fuel bounds the
iteration count. -/
def ExtentStream.read (es : ExtentStream) (n : Nat) : List Nat × ExtentStream :=
  ExtentStream.readLoop (n + es.extents.length + 2) es n

/-- The write loop of ExtentStream::write, fuelled like the read loop. -/
def ExtentStream.writeLoop : Nat → ExtentStream → List Nat → Nat × ExtentStream
  | 0, es, _ => (0, es)
  | fuel + 1, es, buf =>
    if buf.isEmpty then (0, es)
    else
      match es.next_area with
      | .currentExtent rem =>
        let maxLen := min buf.length rem
        let r := es.inner.write (buf.take maxLen)
        let es' := { es with inner := r.2, cursor := (es.cursor.1, es.cursor.2 + r.1) }
        if r.1 = 0 then (0, es')
        else
          let rest := ExtentStream.writeLoop fuel es' (buf.drop r.1)
          (r.1 + rest.1, rest.2)
      | .nextExtent i => ExtentStream.writeLoop fuel (es.set_cursor i 0).2 buf
      | .none_ => (0, es)

/-- ExtentStream::write: returns the number of bytes written. -/
def ExtentStream.write (es : ExtentStream) (buf : List Nat) : Nat × ExtentStream :=
  ExtentStream.writeLoop (buf.length + es.extents.length + 2) es buf

/-- ExtentStream::new: none when the extent list is empty, otherwise the
stream with outer offsets computed and the cursor set (and inner stream
seeked) to the start of the first extent. -/
def ExtentStream.new (inner : Cursor) (extents : List Extent) : Option ExtentStream :=
  if extents.isEmpty then none
  else
    let es : ExtentStream :=
      { inner, cursor := (0, 0), extents, extents_outer := outerOf extents }
    some (es.set_cursor 0 0).2

/-- ExtentStream::new_range: single-extent stream; the extent list is
nonempty so the unwrap in the source cannot fail and the default branch
here is dead. -/
def ExtentStream.new_range (inner : Cursor) (start len : Nat) : ExtentStream :=
  match ExtentStream.new inner [⟨start, len⟩] with
  | some es => es
  | none => { inner, cursor := (0, 0), extents := [⟨start, len⟩], extents_outer := [0, len] }

/-- Stream interface for check_hash (impl Read + Seek in the source): read
returns up to n bytes, seek resolves a SeekFrom; both thread the stream
state also through failures, as a Rust &mut receiver does. -/
structure StreamOps (σ : Type) where
  read : σ → Nat → (Except IoError (List Nat)) × σ
  seek : σ → SeekFrom → (Except IoError Nat) × σ

/-- Read-to-end loop (io::copy into the hasher, Read::read_to_end): read
8192-byte chunks until a zero-length read; the fuel counter stands for the
loop and exhausting it is an error, so a successful result always denotes a
completed loop. -/
def readToEndAux {σ : Type} (ops : StreamOps σ) : Nat → σ → List Nat → (Except IoError (List Nat)) × σ
  | 0, s, _ => (.error .other, s)
  | fuel + 1, s, acc =>
    match ops.read s 8192 with
    | (.error e, s') => (.error e, s')
    | (.ok chunk, s') =>
      if chunk.isEmpty then (.ok acc, s')
      else readToEndAux ops fuel s' (acc ++ chunk)

/-- Read a stream from its current position to EOF. -/
def readToEnd {σ : Type} (ops : StreamOps σ) (fuel : Nat) (s : σ) : (Except IoError (List Nat)) × σ :=
  readToEndAux ops fuel s []

/-- Outcome of check_hash. -/
inductive HashErr where
  | io (e : IoError)
  | mismatch
  deriving DecidableEq

/-- check_hash from src/extract.rs: save the position (stream_position is a
Current(0) seek), hash the bytes from there to EOF, seek back to the saved
position, then compare the digest with the expected one.  The SHA-256
function itself is an external collaborator and is passed as a parameter.
An error from the read or from either seek propagates immediately, skipping
any remaining restore step. -/
def check_hash {σ : Type} (ops : StreamOps σ) (sha256 : List Nat → List Nat) (fuel : Nat)
    (s : σ) (expected : List Nat) : (Except HashErr Unit) × σ :=
  match ops.seek s (.current 0) with
  | (.error e, s') => (.error (.io e), s')
  | (.ok pos, s') =>
    match readToEnd ops fuel s' with
    | (.error e, s'') => (.error (.io e), s'')
    | (.ok bytes, s'') =>
      match ops.seek s'' (.start pos) with
      | (.error e, s3) => (.error (.io e), s3)
      | (.ok _, s3) =>
        if sha256 bytes = expected then (.ok (), s3) else (.error .mismatch, s3)

/-- StreamOps instance for the in-memory Cursor (reads cannot fail). -/
def cursorOps : StreamOps Cursor where
  read := fun c n => let r := c.read n; (.ok r.1, r.2)
  seek := fun c sf => c.seek sf

/-- StreamOps instance for the ExtentStream over a Cursor (reads cannot
fail because the inner reads and the cursor seeks cannot). -/
def esOps : StreamOps ExtentStream where
  read := fun es n => let r := es.read n; (.ok r.1, r.2)
  seek := fun es sf => es.seek sf

/-- Raw manifest extent (protobuf Extent message): optional start_block and
num_blocks, in blocks. -/
structure RawExtent where
  start_block : Option Nat
  num_blocks : Option Nat
  deriving DecidableEq

/-- u64::MAX, the sparse-hole marker for start_block. -/
def U64_MAX : Nat := 2 ^ 64 - 1

/-- Failure cases of extent conversion (the InvalidExtent family). -/
inductive ExtentError where
  | sparseHole
  | missingStartBlock
  | missingNumBlocks
  | zeroBlockSize
  deriving DecidableEq

/-- convert_extent from src/extract/extent.rs: reject sparse holes and
missing fields, otherwise scale both block fields by block_size. -/
def convert_extent (extent : RawExtent) (block_size : Nat) : Except ExtentError Extent :=
  if extent.start_block = some U64_MAX then .error .sparseHole
  else
    match extent.start_block with
    | none => .error .missingStartBlock
    | some sb =>
      match extent.num_blocks with
      | none => .error .missingNumBlocks
      | some nb => .ok ⟨block_size * sb, block_size * nb⟩

/-- The iterator collect of convert_extents: convert each raw extent in
order, propagating the first failure. -/
def convertCollect (block_size : Nat) : List RawExtent → Except ExtentError (List Extent)
  | [] => .ok []
  | e :: rest =>
    match convert_extent e block_size with
    | .error err => .error err
    | .ok c =>
      match convertCollect block_size rest with
      | .error err => .error err
      | .ok cs => .ok (c :: cs)

/-- convert_extents: reject a zero block size, then convert each raw extent
in order, propagating the first failure (iterator collect). -/
def convert_extents (extents : List RawExtent) (block_size : Nat) : Except ExtentError (List Extent) :=
  if block_size = 0 then .error .zeroBlockSize
  else convertCollect block_size extents

/-- Modelled from the spec: the numeric operation-type enumeration of the
chromeos_update_engine protobuf (src/update_metadata.proto is generated
tooling input and not part of the sources here); section 6 of the spec
fixes the names and requires the numeric codes to match the upstream
protobuf, whose values are REPLACE=0, REPLACE_BZ=1, MOVE=2, BSDIFF=3,
SOURCE_COPY=4, SOURCE_BSDIFF=5, ZERO=6, DISCARD=7, REPLACE_XZ=8,
PUFFDIFF=9, BROTLI_BSDIFF=10, ZUCCHINI=11, LZ4DIFF_BSDIFF=12,
LZ4DIFF_PUFFDIFF=13. -/
inductive OperationType where
  | replace
  | replaceBz
  | move
  | bsdiff
  | sourceCopy
  | sourceBsdiff
  | zero
  | discard
  | replaceXz
  | puffdiff
  | brotliBsdiff
  | zucchini
  | lz4diffBsdiff
  | lz4diffPuffdiff
  deriving DecidableEq

/-- Modelled from the spec: OperationType::try_from on the raw protobuf
enum value (prost generated code); unknown codes are rejected. -/
def OperationType.tryFrom (n : Int) : Option OperationType :=
  if n = 0 then some .replace
  else if n = 1 then some .replaceBz
  else if n = 2 then some .move
  else if n = 3 then some .bsdiff
  else if n = 4 then some .sourceCopy
  else if n = 5 then some .sourceBsdiff
  else if n = 6 then some .zero
  else if n = 7 then some .discard
  else if n = 8 then some .replaceXz
  else if n = 9 then some .puffdiff
  else if n = 10 then some .brotliBsdiff
  else if n = 11 then some .zucchini
  else if n = 12 then some .lz4diffBsdiff
  else if n = 13 then some .lz4diffPuffdiff
  else none

/-- InstallOperation record: the manifest fields the interpreter consumes. -/
structure InstallOperation where
  type : Int
  data_offset : Option Nat
  data_length : Option Nat
  src_sha256_hash : Option (List Nat)
  data_sha256_hash : Option (List Nat)
  src_extents : List RawExtent
  dst_extents : List RawExtent
  deriving DecidableEq

/-- Error taxonomy of the interpreter (the anyhow error kinds of
process_part, by the classification in the spec). -/
inductive OpError where
  | io (e : IoError)
  | invalidExtent
  | invalidOperationType
  | unsupportedOperation
  | missingDstExtents
  | missingSource
  | missingData
  | hashMismatch
  deriving DecidableEq

/-- Write-all loop (the write side of io::copy / Write::write_all): write,
and retry with the unwritten remainder; a write that accepts zero bytes of
a nonempty buffer is a WriteZero error.  Returns the number of bytes
written.  The fuel counter stands for the retry loop: every retry carries a
strictly shorter remainder, so the wrapper below always passes enough fuel
for the loop to finish, and the fuel-exhaustion branch is dead there. -/
def writeAllLoop : Nat → ExtentStream → List Nat → (Except IoError Nat) × ExtentStream
  | 0, es, buf => if buf.isEmpty then (.ok 0, es) else (.error .other, es)
  | fuel + 1, es, buf =>
    if buf.isEmpty then (.ok 0, es)
    else
      match es.write buf with
      | (0, es2) => (.error .writeZero, es2)
      | (a + 1, es2) =>
        match writeAllLoop fuel es2 (buf.drop (a + 1)) with
        | (.error e, es') => (.error e, es')
        | (.ok m, es') => (.ok (a + 1 + m), es')

def writeAllES (es : ExtentStream) (buf : List Nat) : (Except IoError Nat) × ExtentStream :=
  writeAllLoop buf.length es buf

/-- io::copy from an in-memory producer into the destination stream.  The
producer is the byte sequence it yields before returning EOF (flag true) or
before failing (flag false); the interleaving of its chunked reads with the
destination writes is unobservable, so the model writes the bytes first and
then surfaces the producer's trailing error if any.  Returns the number of
bytes written, as io::copy does. -/
def ioCopy (src : List Nat × Bool) (dst : ExtentStream) : (Except IoError Nat) × ExtentStream :=
  match writeAllES dst src.1 with
  | (.error e, dst') => (.error e, dst')
  | (.ok n, dst') => if src.2 then (.ok n, dst') else (.error .other, dst')

/-- copy_padded from src/extract.rs: copy the producer into dst, then copy
len - written zero bytes (io::repeat(0).take(..)); the Nat subtraction is
the saturating_sub of the source.  Returns the total number of bytes
written to dst, a count the source discards but which the padding theorems
are about. -/
def copy_padded (src : List Nat × Bool) (dst : ExtentStream) (len : Nat) : (Except IoError Nat) × ExtentStream :=
  match ioCopy src dst with
  | (.error e, dst') => (.error e, dst')
  | (.ok written, dst') =>
    match ioCopy (List.replicate (len - written) 0, true) dst' with
    | (.error e, dst'') => (.error e, dst'')
    | (.ok pad, dst'') => (.ok (written + pad), dst'')

/-- External collaborators of the interpreter, passed as parameters: the
SHA-256 digest, the bz2 and xz decoders (each yielding the decoded bytes
and whether decoding ended cleanly), and the bsdiff patch engine (given
source stream, destination stream and patch bytes, returning the number of
bytes it wrote to the destination on success, and the two stream states). -/
structure ProcCtx where
  sha256 : List Nat → List Nat
  bz : List Nat → List Nat × Bool
  xz : List Nat → List Nat × Bool
  bspatchFn : ExtentStream → ExtentStream → List Nat →
    (Except IoError Nat) × ExtentStream × ExtentStream

/-- One hash verification of process_part: when both the stream and the
expected digest are present, run check_hash and thread the stream state;
otherwise pass the stream through. -/
def checkOne (sha256 : List Nat → List Nat) (fuel : Nat) (s : Option ExtentStream)
    (h : Option (List Nat)) : Except OpError (Option ExtentStream) :=
  match s, h with
  | some s, some h =>
    match check_hash esOps sha256 fuel s h with
    | (.ok _, s') => .ok (some s')
    | (.error .mismatch, _) => .error .hashMismatch
    | (.error (.io e), _) => .error (.io e)
  | s, _ => .ok s

/-- The hash-verification phase of process_part: unless disabled, check the
source stream against src_sha256_hash and then the data stream against
data_sha256_hash. -/
def checkHashes (ctx : ProcCtx) (skip_hash : Bool) (op : InstallOperation) (fuel : Nat)
    (srcS dataS : Option ExtentStream) : Except OpError (Option ExtentStream × Option ExtentStream) :=
  if skip_hash then .ok (srcS, dataS)
  else
    match checkOne ctx.sha256 fuel srcS op.src_sha256_hash with
    | .error e => .error e
    | .ok srcS' =>
      match checkOne ctx.sha256 fuel dataS op.data_sha256_hash with
      | .error e => .error e
      | .ok dataS' => .ok (srcS', dataS')

/-- The dispatch phase of process_part: one arm per operation type; the
recognized but unimplemented types fall to the final UnsupportedOperation
arm.  Returns the destination stream state and the number of bytes written
to it. -/
def dispatchOp (ctx : ProcCtx) (op_type : OperationType) (fuel : Nat)
    (srcS dataS : Option ExtentStream) (dstS : ExtentStream) (dst_len : Nat) :
    Except OpError (ExtentStream × Nat) :=
  match op_type with
  | .replace | .replaceBz | .replaceXz =>
    match dataS with
    | none => .error .missingData
    | some dataS =>
      match readToEnd esOps fuel dataS with
      | (.error e, _) => .error (.io e)
      | (.ok bytes, _) =>
        let decoded : List Nat × Bool :=
          match op_type with
          | .replaceBz => ctx.bz bytes
          | .replaceXz => ctx.xz bytes
          | _ => (bytes, true)
        match copy_padded decoded dstS dst_len with
        | (.error e, _) => .error (.io e)
        | (.ok total, dstS') => .ok (dstS', total)
  | .zero =>
    match copy_padded ([], true) dstS dst_len with
    | (.error e, _) => .error (.io e)
    | (.ok total, dstS') => .ok (dstS', total)
  | .sourceCopy =>
    match srcS with
    | none => .error .missingSource
    | some srcS =>
      match readToEnd esOps fuel srcS with
      | (.error e, _) => .error (.io e)
      | (.ok bytes, _) =>
        match copy_padded (bytes, true) dstS dst_len with
        | (.error e, _) => .error (.io e)
        | (.ok total, dstS') => .ok (dstS', total)
  | .sourceBsdiff | .brotliBsdiff =>
    match srcS with
    | none => .error .missingSource
    | some srcS =>
      match dataS with
      | none => .error .missingData
      | some dataS =>
        match readToEnd esOps fuel dataS with
        | (.error e, _) => .error (.io e)
        | (.ok patch, _) =>
          match ctx.bspatchFn srcS dstS patch with
          | (.error e, _, _) => .error (.io e)
          | (.ok n, _, dstS') => .ok (dstS', n)
  | _ => .error .unsupportedOperation

/-- The source-stream construction of process_part: when a source backing
stream is present, convert src_extents and build the extent stream over it
(none when src_extents is empty); extent conversion failures abort. -/
def buildSrcStream (src : Option Cursor) (raw : List RawExtent) (block_size : Nat) :
    Except OpError (Option ExtentStream) :=
  match src with
  | none => .ok none
  | some c =>
    match convert_extents raw block_size with
    | .error _ => .error .invalidExtent
    | .ok exts => .ok (ExtentStream.new c exts)

/-- The data-stream construction of process_part: the zip of data_offset
and data_length mapped through ExtentStream::new_range. -/
def buildDataStream (data : Cursor) (off len : Option Nat) : Option ExtentStream :=
  match off, len with
  | some o, some l => some (ExtentStream.new_range data o l)
  | _, _ => none

/-- One iteration of the operation loop of process_part (src/extract.rs):
decode the operation type, build the source / destination / data extent
streams over the per-partition backing streams, verify the hashes, compute
dst_len and dispatch.  Returns the final destination backing stream and the
number of bytes written to the destination stream. -/
def process_op (ctx : ProcCtx) (skip_hash : Bool) (block_size : Nat) (op : InstallOperation)
    (data : Cursor) (src : Option Cursor) (dst : Cursor) (fuel : Nat) :
    Except OpError (Cursor × Nat) :=
  match OperationType.tryFrom op.type with
  | none => .error .invalidOperationType
  | some op_type =>
    match buildSrcStream src op.src_extents block_size with
    | .error e => .error e
    | .ok srcS =>
      match convert_extents op.dst_extents block_size with
      | .error _ => .error .invalidExtent
      | .ok dstExts =>
        match ExtentStream.new dst dstExts with
        | none => .error .missingDstExtents
        | some dstS =>
          match checkHashes ctx skip_hash op fuel srcS
              (buildDataStream data op.data_offset op.data_length) with
          | .error e => .error e
          | .ok (srcS', dataS') =>
            match dispatchOp ctx op_type fuel srcS' dataS' dstS dstS.len with
            | .error e => .error e
            | .ok (dstS', total) => .ok (dstS'.inner, total)

/-- Well-formed state of an extent stream, as established by new and
preserved by every operation: a nonempty extent list, the stored outer
offsets are the prefix sums of the extent lengths, the cursor extent index
is in bounds, the byte offset does not pass the end of its extent, and the
inner position matches the logical cursor. -/
def WFS (es : ExtentStream) : Prop :=
  es.extents ≠ [] ∧
  es.extents_outer = outerOf es.extents ∧
  es.cursor.1 < es.extents.length ∧
  es.cursor.2 ≤ (es.extents.getD es.cursor.1 ⟨0, 0⟩).len ∧
  es.inner.pos = (es.extents.getD es.cursor.1 ⟨0, 0⟩).start + es.cursor.2

instance (es : ExtentStream) : Decidable (WFS es) := by
  unfold WFS; infer_instance

/-- Sorted-and-disjoint extent list (the documented precondition of
ExtentStream): each extent ends at or before the next one starts. -/
def SD : List Extent → Prop
  | [] => True
  | [_] => True
  | a :: b :: rest => a.start + a.len ≤ b.start ∧ SD (b :: rest)

instance instDecSD : (l : List Extent) → Decidable (SD l)
  | [] => .isTrue trivial
  | [_] => .isTrue trivial
  | _ :: b :: rest =>
    have : Decidable (SD (b :: rest)) := instDecSD (b :: rest)
    inferInstanceAs (Decidable (_ ∧ _))

/-- The bytes an extent list selects from a byte sequence: the
concatenation of the extent slices, each truncated where the sequence is
shorter than the extent. -/
def remAux (exts : List Extent) (data : List Nat) : List Nat :=
  match exts with
  | [] => []
  | e :: rest => ((data.drop e.start).take e.len) ++ remAux rest data

/-- The bytes remaining in an extent stream from its logical cursor to its
logical end: the tail of the cursor extent's slice followed by the slices
of the later extents. -/
def ExtentStream.remOf (es : ExtentStream) : List Nat :=
  ((es.inner.data.drop ((es.extents.getD es.cursor.1 ⟨0, 0⟩).start + es.cursor.2)).take
      ((es.extents.getD es.cursor.1 ⟨0, 0⟩).len - es.cursor.2)) ++
    remAux (es.extents.drop (es.cursor.1 + 1)) es.inner.data

/-- Reference form of the data written by the extent-stream write loop:
starting b bytes into the first listed extent, place the next chunk of buf
into each extent in turn. -/
def wsd : List Nat → List Extent → Nat → List Nat → List Nat
  | data, [], _, _ => data
  | data, e :: rest, b, buf =>
    if buf.isEmpty then data
    else
      let k := min buf.length (e.len - b)
      if k = 0 then wsd data rest 0 buf
      else wsd (listWrite data (e.start + b) (buf.take k)) rest 0 (buf.drop k)

/-- Locate the extent of an inner byte index j and translate it to the
outer index of the byte written there, acc being the outer offset of the
first listed extent. -/
def lookupScatter (exts : List Extent) (acc : Nat) (j : Nat) : Option Nat :=
  match exts with
  | [] => none
  | e :: rest =>
    if e.start ≤ j ∧ j < e.start + e.len then some (acc + (j - e.start))
    else lookupScatter rest (acc + e.len) j

/-- Sum of lengths of a prefix. -/
lemma sumLens_nil : sumLens [] = 0 := rfl

lemma sumLens_cons (e : Extent) (l : List Extent) : sumLens (e :: l) = e.len + sumLens l := by
  simp [sumLens]

lemma sumLens_take_succ (l : List Extent) (j : Nat) (h : j < l.length) :
    sumLens (l.take (j + 1)) = sumLens (l.take j) + (l.getD j ⟨0, 0⟩).len := by
  induction l generalizing j with
  | nil => simp at h
  | cons e rest ih =>
    cases j with
    | zero => simp [sumLens, List.getD]
    | succ j =>
      simp only [List.take_succ_cons, sumLens_cons, List.getD_cons_succ]
      rw [ih j (by simpa using h)]
      omega

lemma sumLens_take_le (l : List Extent) (i j : Nat) (h : i ≤ j) :
    sumLens (l.take i) ≤ sumLens (l.take j) := by
  induction l generalizing i j with
  | nil => simp
  | cons e rest ih =>
    cases i with
    | zero => simp [sumLens]
    | succ i =>
      cases j with
      | zero => omega
      | succ j =>
        simp only [List.take_succ_cons, sumLens_cons]
        have := ih i j (by omega)
        omega

lemma sumLens_take_all (l : List Extent) (j : Nat) (h : l.length ≤ j) :
    sumLens (l.take j) = sumLens l := by
  rw [List.take_of_length_le h]

lemma outerAux_getD (l : List Extent) : ∀ (acc j : Nat), j < l.length →
    (outerAux acc l).getD j 0 = acc + sumLens (l.take (j + 1)) := by
  induction l with
  | nil => intro acc j h; simp at h
  | cons e rest ih =>
    intro acc j h
    cases j with
    | zero => simp [outerAux, sumLens, List.getD]
    | succ j =>
      simp only [outerAux, List.getD_cons_succ, List.take_succ_cons, sumLens_cons]
      rw [ih (acc + e.len) j (by simpa using h)]
      omega

lemma outerOf_getD (l : List Extent) (j : Nat) (h : j ≤ l.length) :
    (outerOf l).getD j 0 = sumLens (l.take j) := by
  cases j with
  | zero => simp [outerOf, List.getD, sumLens]
  | succ j =>
    simp only [outerOf, List.getD_cons_succ]
    simpa using outerAux_getD l 0 j (by omega)

lemma outerAux_length (l : List Extent) : ∀ acc, (outerAux acc l).length = l.length := by
  induction l with
  | nil => intro acc; simp [outerAux]
  | cons e rest ih => intro acc; simp [outerAux, ih]

lemma outerOf_length (l : List Extent) : (outerOf l).length = l.length + 1 := by
  simp [outerOf, outerAux_length]

lemma outerOf_getLast (l : List Extent) : (outerOf l).getLast?.getD 0 = sumLens l := by
  have hget : (outerOf l).getD l.length 0 = sumLens l := by
    rw [outerOf_getD l l.length (Nat.le_refl _), sumLens_take_all l l.length (Nat.le_refl _)]
  rw [List.getD_eq_getElem?_getD] at hget
  rw [List.getLast?_eq_getElem?, outerOf_length]
  simpa using hget

/-- Components of an extent stream preserved by reads and writes: the
extent list, the outer offsets, and the inner data (reads also preserve the
data; for writes this clause is replaced by the data characterization). -/
def PresRO (es r : ExtentStream) : Prop :=
  r.extents = es.extents ∧ r.extents_outer = es.extents_outer ∧ r.inner.data = es.inner.data

lemma PresRO.refl (es : ExtentStream) : PresRO es es := ⟨rfl, rfl, rfl⟩

lemma PresRO.trans {a b c : ExtentStream} (h1 : PresRO a b) (h2 : PresRO b c) : PresRO a c :=
  ⟨h2.1.trans h1.1, h2.2.1.trans h1.2.1, h2.2.2.trans h1.2.2⟩

lemma next_area_eq_current (es : ExtentStream) (h1 : es.cursor.1 < es.extents.length)
    (h2 : es.cursor.2 < (es.extents.getD es.cursor.1 ⟨0, 0⟩).len) :
    es.next_area = .currentExtent ((es.extents.getD es.cursor.1 ⟨0, 0⟩).len - es.cursor.2) := by
  simp only [ExtentStream.next_area]
  rw [if_neg (by omega), if_pos (by omega)]

lemma next_area_eq_next (es : ExtentStream) (h1 : es.cursor.1 < es.extents.length)
    (h2 : (es.extents.getD es.cursor.1 ⟨0, 0⟩).len ≤ es.cursor.2)
    (h3 : es.cursor.1 + 1 < es.extents.length) :
    es.next_area = .nextExtent (es.cursor.1 + 1) := by
  simp only [ExtentStream.next_area]
  rw [if_neg (by omega), if_neg (by omega), if_pos h3]

lemma next_area_eq_none (es : ExtentStream) (h1 : es.cursor.1 < es.extents.length)
    (h2 : (es.extents.getD es.cursor.1 ⟨0, 0⟩).len ≤ es.cursor.2)
    (h3 : ¬es.cursor.1 + 1 < es.extents.length) :
    es.next_area = .none_ := by
  simp only [ExtentStream.next_area]
  rw [if_neg (by omega), if_neg (by omega), if_neg h3]

lemma set_cursor_snd (es : ExtentStream) (i b : Nat) :
    (es.set_cursor i b).2 =
      { es with cursor := (i, b),
                inner := { es.inner with pos := (es.extents.getD i ⟨0, 0⟩).start + b } } := by
  simp [ExtentStream.set_cursor, Cursor.seek]

lemma set_cursor_fst (es : ExtentStream) (i b : Nat) :
    (es.set_cursor i b).1 = es.extents_outer.getD i 0 + b := rfl

/-- The logical length in terms of the extent lengths, under the outer
offsets field being the computed prefix sums. -/
lemma len_eq_sumLens (es : ExtentStream) (h : es.extents_outer = outerOf es.extents) :
    es.len = sumLens es.extents := by
  rw [ExtentStream.len, h, outerOf_getLast]

lemma posOuter_eq (es : ExtentStream) (h : es.extents_outer = outerOf es.extents)
    (hlt : es.cursor.1 < es.extents.length) :
    es.posOuter = sumLens (es.extents.take es.cursor.1) + es.cursor.2 := by
  rw [ExtentStream.posOuter, h, outerOf_getD _ _ (by omega)]

lemma posOuter_le_len (es : ExtentStream) (hw : WFS es) : es.posOuter ≤ es.len := by
  obtain ⟨hne, houts, hlt, hble, hpos⟩ := hw
  rw [posOuter_eq es houts hlt, len_eq_sumLens es houts]
  have h1 := sumLens_take_succ es.extents es.cursor.1 hlt
  have h2 := sumLens_take_le es.extents (es.cursor.1 + 1) es.extents.length (by omega)
  have h3 := sumLens_take_all es.extents es.extents.length (Nat.le_refl _)
  omega

/-- Outer offset step: the offset of extent i+1 is the offset of extent i
plus its length. -/
lemma outs_getD_succ (exts : List Extent) (outs : List Nat) (h : outs = outerOf exts)
    (i : Nat) (hlt : i < exts.length) :
    outs.getD (i + 1) 0 = outs.getD i 0 + (exts.getD i ⟨0, 0⟩).len := by
  rw [h, outerOf_getD _ _ (by omega), outerOf_getD _ _ (by omega), sumLens_take_succ _ _ hlt]

/-- The read loop preserves the extent structure and the inner data,
preserves well-formedness, and advances the outer position by exactly the
number of bytes it returns. -/
lemma readLoop_pres (fuel : Nat) : ∀ (es : ExtentStream) (n : Nat), WFS es →
    PresRO es (ExtentStream.readLoop fuel es n).2 ∧
    WFS (ExtentStream.readLoop fuel es n).2 ∧
    (ExtentStream.readLoop fuel es n).2.posOuter
      = es.posOuter + (ExtentStream.readLoop fuel es n).1.length ∧
    (ExtentStream.readLoop fuel es n).1.length ≤ n := by
  induction fuel with
  | zero =>
    intro es n hw
    exact ⟨PresRO.refl es, hw, by simp [ExtentStream.readLoop], by simp [ExtentStream.readLoop]⟩
  | succ fuel ih =>
    rintro ⟨⟨data, pos⟩, ⟨i, b⟩, exts, outs⟩ n hw
    obtain ⟨hne, houts, hlt, hble, hpos⟩ := hw
    simp only at hne houts hlt hble hpos
    by_cases hn : n = 0
    · subst hn
      exact ⟨PresRO.refl _, ⟨hne, houts, hlt, hble, hpos⟩, by simp [ExtentStream.readLoop],
        by simp [ExtentStream.readLoop]⟩
    by_cases hrem : b < (exts.getD i ⟨0, 0⟩).len
    · -- current extent: one inner read
      have hna : ExtentStream.next_area ⟨⟨data, pos⟩, (i, b), exts, outs⟩
          = .currentExtent ((exts.getD i ⟨0, 0⟩).len - b) :=
        next_area_eq_current _ hlt hrem
      have hchlen : ((data.drop pos).take (min n ((exts.getD i ⟨0, 0⟩).len - b))).length
          ≤ (exts.getD i ⟨0, 0⟩).len - b := by
        simp only [List.length_take, List.length_drop]
        omega
      simp only [ExtentStream.readLoop, if_neg hn, hna, Cursor.read]
      generalize hchunk : (data.drop pos).take (min n ((exts.getD i ⟨0, 0⟩).len - b)) = chunk at *
      have hchn : chunk.length ≤ n := by
        rw [← hchunk]
        simp only [List.length_take, List.length_drop]
        omega
      by_cases hk : chunk.length = 0
      · rw [if_pos hk]
        refine ⟨⟨rfl, rfl, rfl⟩, ⟨hne, houts, hlt, ?_, ?_⟩, ?_, by simp⟩
        · show b + chunk.length ≤ (exts.getD i ⟨0, 0⟩).len
          omega
        · show pos + chunk.length = (exts.getD i ⟨0, 0⟩).start + (b + chunk.length)
          omega
        · show ExtentStream.posOuter ⟨⟨data, pos + chunk.length⟩, (i, b + chunk.length), exts, outs⟩
            = ExtentStream.posOuter ⟨⟨data, pos⟩, (i, b), exts, outs⟩ + ([] : List Nat).length
          simp only [ExtentStream.posOuter, List.length_nil]
          omega
      · simp only [if_neg hk]
        have hw' : WFS ⟨⟨data, pos + chunk.length⟩, (i, b + chunk.length), exts, outs⟩ := by
          refine ⟨hne, houts, hlt, ?_, ?_⟩
          · show b + chunk.length ≤ (exts.getD i ⟨0, 0⟩).len
            omega
          · show pos + chunk.length = (exts.getD i ⟨0, 0⟩).start + (b + chunk.length)
            omega
        obtain ⟨hpres, hwf, hadv, hlen2⟩ := ih _ (n - chunk.length) hw'
        refine ⟨hpres.trans ⟨rfl, rfl, rfl⟩, hwf, ?_, ?_⟩
        · rw [hadv]
          simp only [ExtentStream.posOuter, List.length_append]
          omega
        · simp only [List.length_append]
          omega
    · -- cursor at the end of the current extent
      by_cases hnx : i + 1 < exts.length
      · have hna : ExtentStream.next_area ⟨⟨data, pos⟩, (i, b), exts, outs⟩
            = .nextExtent (i + 1) :=
          next_area_eq_next _ hlt (show (exts.getD i ⟨0, 0⟩).len ≤ b by omega) hnx
        simp only [ExtentStream.readLoop, if_neg hn, hna, set_cursor_snd]
        have hw' : WFS ⟨⟨data, (exts.getD (i + 1) ⟨0, 0⟩).start + 0⟩, (i + 1, 0), exts, outs⟩ := by
          refine ⟨hne, houts, hnx, ?_, ?_⟩
          · show 0 ≤ (exts.getD (i + 1) ⟨0, 0⟩).len
            omega
          · show (exts.getD (i + 1) ⟨0, 0⟩).start + 0 = (exts.getD (i + 1) ⟨0, 0⟩).start + 0
            rfl
        obtain ⟨hpres, hwf, hadv, hlen2⟩ := ih _ n hw'
        refine ⟨hpres.trans ⟨rfl, rfl, rfl⟩, hwf, ?_, hlen2⟩
        rw [hadv]
        have hstep := outs_getD_succ exts outs houts i hlt
        simp only [ExtentStream.posOuter]
        omega
      · have hna : ExtentStream.next_area ⟨⟨data, pos⟩, (i, b), exts, outs⟩ = .none_ :=
          next_area_eq_none _ hlt (show (exts.getD i ⟨0, 0⟩).len ≤ b by omega) hnx
        simp only [ExtentStream.readLoop, if_neg hn, hna]
        exact ⟨PresRO.refl _, ⟨hne, houts, hlt, hble, hpos⟩, by simp, by simp⟩

lemma wsd_nil_buf (data : List Nat) (l : List Extent) (b : Nat) : wsd data l b [] = data := by
  cases l <;> simp [wsd]

lemma wsd_cons (data : List Nat) (e : Extent) (rest : List Extent) (b : Nat) (buf : List Nat) :
    wsd data (e :: rest) b buf =
      if buf.isEmpty then data
      else if min buf.length (e.len - b) = 0 then wsd data rest 0 buf
      else wsd (listWrite data (e.start + b) (buf.take (min buf.length (e.len - b)))) rest 0
        (buf.drop (min buf.length (e.len - b))) := rfl

/-- One productive write inside an extent steps the reference scatter
function: writing the accepted chunk and advancing within the same extent
agrees with the recursion of wsd. -/
lemma wsd_step (data : List Nat) (e : Extent) (rest : List Extent) (b : Nat) (buf : List Nat)
    (hbuf : ¬buf.isEmpty) (hk : ¬min buf.length (e.len - b) = 0) :
    wsd data (e :: rest) b buf
      = wsd (listWrite data (e.start + b) (buf.take (min buf.length (e.len - b)))) (e :: rest)
          (b + min buf.length (e.len - b)) (buf.drop (min buf.length (e.len - b))) := by
  rw [wsd_cons, if_neg hbuf, if_neg hk]
  rw [wsd_cons]
  by_cases hb2 : (buf.drop (min buf.length (e.len - b))).isEmpty
  · rw [if_pos hb2]
    have : buf.drop (min buf.length (e.len - b)) = [] := by
      simpa [List.isEmpty_iff] using hb2
    rw [this, wsd_nil_buf]
  · rw [if_neg hb2]
    rw [List.isEmpty_iff_length_eq_zero, List.length_drop] at hb2
    have hz : min (buf.drop (min buf.length (e.len - b))).length
        (e.len - (b + min buf.length (e.len - b))) = 0 := by
      simp only [List.length_drop]
      omega
    rw [if_pos hz]

/-- The write loop over a growing inner stream: it accepts exactly the
buffer up to the remaining logical capacity, preserves the extent
structure and well-formedness, advances the outer position by the accepted
count, and rewrites the inner data as the reference scatter function
prescribes. -/
lemma writeLoop_spec (fuel : Nat) : ∀ (es : ExtentStream) (buf : List Nat), WFS es →
    fuel ≥ buf.length + (es.extents.length - es.cursor.1) + 1 →
    (ExtentStream.writeLoop fuel es buf).1 = min buf.length (es.len - es.posOuter) ∧
    (ExtentStream.writeLoop fuel es buf).2.extents = es.extents ∧
    (ExtentStream.writeLoop fuel es buf).2.extents_outer = es.extents_outer ∧
    WFS (ExtentStream.writeLoop fuel es buf).2 ∧
    (ExtentStream.writeLoop fuel es buf).2.posOuter
      = es.posOuter + (ExtentStream.writeLoop fuel es buf).1 ∧
    (ExtentStream.writeLoop fuel es buf).2.inner.data
      = wsd es.inner.data (es.extents.drop es.cursor.1) es.cursor.2 buf := by
  induction fuel with
  | zero =>
    intro es buf hw hfuel
    omega
  | succ fuel ih =>
    rintro ⟨⟨data, pos⟩, ⟨i, b⟩, exts, outs⟩ buf hw hfuel
    obtain ⟨hne, houts, hlt, hble, hpos⟩ := hw
    simp only at hne houts hlt hble hpos hfuel
    have hdropc : exts.drop i = exts.getD i ⟨0, 0⟩ :: exts.drop (i + 1) := by
      rw [List.getD_eq_getElem _ _ hlt]
      exact List.drop_eq_getElem_cons hlt
    have hlast : outs.getLast?.getD 0 = sumLens exts := by
      rw [houts]; exact outerOf_getLast exts
    have hcapend : outs.getD i 0 + (exts.getD i ⟨0, 0⟩).len ≤ sumLens exts := by
      have h1 := outs_getD_succ exts outs houts i hlt
      have h2 : outs.getD (i + 1) 0 = sumLens (exts.take (i + 1)) := by
        rw [houts]; exact outerOf_getD _ _ (by omega)
      have h3 := sumLens_take_le exts (i + 1) exts.length (by omega)
      have h4 := sumLens_take_all exts exts.length (Nat.le_refl _)
      omega
    by_cases hb0 : buf.isEmpty
    · have hbe : buf = [] := by simpa [List.isEmpty_iff] using hb0
      subst hbe
      simp only [ExtentStream.writeLoop, if_pos hb0]
      refine ⟨?_, trivial, trivial, ⟨hne, houts, hlt, hble, hpos⟩, ?_, (wsd_nil_buf _ _ _).symm⟩
      · simp
      · simp
    have hbl : ¬buf.length = 0 := by simpa [List.isEmpty_iff_length_eq_zero] using hb0
    by_cases hrem : b < (exts.getD i ⟨0, 0⟩).len
    · -- current extent: one inner write of maxLen bytes
      have hna : ExtentStream.next_area ⟨⟨data, pos⟩, (i, b), exts, outs⟩
          = .currentExtent ((exts.getD i ⟨0, 0⟩).len - b) :=
        next_area_eq_current _ hlt hrem
      simp only [ExtentStream.writeLoop, if_neg hb0, hna, Cursor.write]
      have htk : (buf.take (min buf.length ((exts.getD i ⟨0, 0⟩).len - b))).length
          = min buf.length ((exts.getD i ⟨0, 0⟩).len - b) := by
        simp [List.length_take]
      rw [htk]
      have hmaxne : ¬min buf.length ((exts.getD i ⟨0, 0⟩).len - b) = 0 := by omega
      rw [if_neg hmaxne]
      have hw' : WFS ⟨⟨listWrite data pos (buf.take (min buf.length ((exts.getD i ⟨0, 0⟩).len - b))),
            pos + min buf.length ((exts.getD i ⟨0, 0⟩).len - b)⟩,
          (i, b + min buf.length ((exts.getD i ⟨0, 0⟩).len - b)), exts, outs⟩ := by
        refine ⟨hne, houts, hlt, ?_, ?_⟩
        · show b + min buf.length ((exts.getD i ⟨0, 0⟩).len - b) ≤ (exts.getD i ⟨0, 0⟩).len
          omega
        · show pos + min buf.length ((exts.getD i ⟨0, 0⟩).len - b)
            = (exts.getD i ⟨0, 0⟩).start + (b + min buf.length ((exts.getD i ⟨0, 0⟩).len - b))
          omega
      obtain ⟨hcnt, hext, hout, hwf, hadv, hdata⟩ := ih _
        (buf.drop (min buf.length ((exts.getD i ⟨0, 0⟩).len - b))) hw'
        (by simp only [List.length_drop]; omega)
      simp only [ExtentStream.len, ExtentStream.posOuter, List.length_drop] at hcnt hadv ⊢
      rw [hlast] at hcnt ⊢
      refine ⟨?_, hext, hout, hwf, ?_, ?_⟩
      · rw [hcnt]
        omega
      · rw [hadv, hcnt]
        omega
      · rw [hdata]
        show wsd (listWrite data pos (buf.take (min buf.length ((exts.getD i ⟨0, 0⟩).len - b))))
            (exts.drop i) (b + min buf.length ((exts.getD i ⟨0, 0⟩).len - b))
            (buf.drop (min buf.length ((exts.getD i ⟨0, 0⟩).len - b)))
          = wsd data (exts.drop i) b buf
        rw [hdropc, hpos]
        exact (wsd_step data _ _ b buf hb0 hmaxne).symm
    · -- cursor at the end of the current extent
      by_cases hnx : i + 1 < exts.length
      · have hna : ExtentStream.next_area ⟨⟨data, pos⟩, (i, b), exts, outs⟩
            = .nextExtent (i + 1) :=
          next_area_eq_next _ hlt (show (exts.getD i ⟨0, 0⟩).len ≤ b by omega) hnx
        simp only [ExtentStream.writeLoop, if_neg hb0, hna, set_cursor_snd]
        have hw' : WFS ⟨⟨data, (exts.getD (i + 1) ⟨0, 0⟩).start + 0⟩, (i + 1, 0), exts, outs⟩ := by
          refine ⟨hne, houts, hnx, ?_, rfl⟩
          show 0 ≤ (exts.getD (i + 1) ⟨0, 0⟩).len
          omega
        obtain ⟨hcnt, hext, hout, hwf, hadv, hdata⟩ := ih _ buf hw'
          (show fuel ≥ buf.length + (exts.length - (i + 1)) + 1 by omega)
        have hstep := outs_getD_succ exts outs houts i hlt
        simp only [ExtentStream.len, ExtentStream.posOuter, List.length_drop] at hcnt hadv ⊢
        rw [hlast] at hcnt ⊢
        refine ⟨?_, hext, hout, hwf, ?_, ?_⟩
        · rw [hcnt]
          omega
        · rw [hadv, hcnt]
          omega
        · rw [hdata]
          show wsd data (exts.drop (i + 1)) 0 buf = wsd data (exts.drop i) b buf
          rw [hdropc, wsd_cons, if_neg hb0]
          have hzero : min buf.length ((exts.getD i ⟨0, 0⟩).len - b) = 0 := by omega
          rw [if_pos hzero]
      · have hna : ExtentStream.next_area ⟨⟨data, pos⟩, (i, b), exts, outs⟩ = .none_ :=
          next_area_eq_none _ hlt (show (exts.getD i ⟨0, 0⟩).len ≤ b by omega) hnx
        simp only [ExtentStream.writeLoop, if_neg hb0, hna]
        have hdrop1 : exts.drop (i + 1) = [] := by
          rw [List.drop_eq_nil_iff]
          omega
        have hend : outs.getD i 0 + b = sumLens exts := by
          have h1 := outs_getD_succ exts outs houts i hlt
          have h2 : outs.getD (i + 1) 0 = sumLens (exts.take (i + 1)) := by
            rw [houts]; exact outerOf_getD _ _ (by omega)
          have h3 := sumLens_take_all exts (i + 1) (by omega)
          omega
        refine ⟨?_, trivial, trivial, ⟨hne, houts, hlt, hble, hpos⟩, ?_, ?_⟩
        · simp only [ExtentStream.len, ExtentStream.posOuter]
          rw [hlast]
          omega
        · simp only [ExtentStream.posOuter]
          omega
        · show data = wsd data (exts.drop i) b buf
          rw [hdropc, hdrop1, wsd_cons, if_neg hb0]
          have hzero : min buf.length ((exts.getD i ⟨0, 0⟩).len - b) = 0 := by omega
          rw [if_pos hzero, wsd]

lemma SD_tail {e : Extent} {rest : List Extent} (h : SD (e :: rest)) : SD rest := by
  cases rest with
  | nil => trivial
  | cons f r => exact h.2

lemma SD_le_of_mem {e : Extent} {rest : List Extent} (h : SD (e :: rest)) {f : Extent}
    (hf : f ∈ rest) : e.start + e.len ≤ f.start := by
  induction rest generalizing e with
  | nil => simp at hf
  | cons g r ih =>
    rcases List.mem_cons.mp hf with rfl | hf'
    · exact h.1
    · have h1 : e.start + e.len ≤ g.start := h.1
      have h3 := ih h.2 hf'
      omega

lemma SD_drop (l : List Extent) : ∀ i, SD l → SD (l.drop i) := by
  induction l with
  | nil => intro i _; simp [SD]
  | cons e rest ih =>
    intro i h
    cases i with
    | zero => exact h
    | succ i => exact ih i (SD_tail h)

/-- When the data ends at or before every listed extent, the selected
bytes are empty. -/
lemma remAux_eq_nil (exts : List Extent) (data : List Nat)
    (h : ∀ f ∈ exts, data.length ≤ f.start) : remAux exts data = [] := by
  induction exts with
  | nil => rfl
  | cons f rest ih =>
    simp only [remAux]
    rw [List.drop_eq_nil_of_le (h f (List.mem_cons_self f rest))]
    simp only [List.take_nil, List.nil_append]
    exact ih (fun g hg => h g (List.mem_cons_of_mem f hg))

/-- Gluing identity for the take side of a chunked read. -/
lemma take_glue (s R : List Nat) (n : Nat) :
    (s.drop (min n s.length) ++ R).take (n - min n s.length) = R.take (n - s.length) := by
  rcases le_or_lt n s.length with h | h
  · have h1 : min n s.length = n := by omega
    have h2 : n - n = 0 := by omega
    have h3 : n - s.length = 0 := by omega
    rw [h1, h2, h3]
    simp
  · have h1 : min n s.length = s.length := by omega
    rw [h1, List.drop_length]
    simp

/-- Gluing identity for the drop side of a chunked read. -/
lemma drop_glue (s R : List Nat) (n : Nat) :
    (s.drop (min n s.length) ++ R).drop (n - min n s.length) = s.drop n ++ R.drop (n - s.length) := by
  rcases le_or_lt n s.length with h | h
  · have h1 : min n s.length = n := by omega
    rw [h1, List.drop_append_eq_append_drop, List.drop_drop]
    have h2 : n + (n - n) = n := by omega
    have h3 : n - n - (s.drop n).length = n - s.length := by
      simp only [List.length_drop]; omega
    rw [h2, h3]
  · have h1 : min n s.length = s.length := by omega
    rw [h1, List.drop_length]
    have h2 : s.drop n = [] := List.drop_eq_nil_of_le (by omega)
    rw [h2]
    simp

/-- The read loop returns exactly the next n remaining bytes and leaves a
stream whose remaining bytes are the rest, on a sorted-disjoint extent
list. -/
lemma readLoop_full (fuel : Nat) : ∀ (es : ExtentStream) (n : Nat), WFS es → SD es.extents →
    fuel ≥ n + (es.extents.length - es.cursor.1) + 1 →
    (ExtentStream.readLoop fuel es n).1 = es.remOf.take n ∧
    (ExtentStream.readLoop fuel es n).2.remOf = es.remOf.drop n := by
  induction fuel with
  | zero =>
    intro es n hw hsd hfuel
    omega
  | succ fuel ih =>
    rintro ⟨⟨data, pos⟩, ⟨i, b⟩, exts, outs⟩ n hw hsd hfuel
    obtain ⟨hne, houts, hlt, hble, hpos⟩ := hw
    simp only at hne houts hlt hble hpos hfuel hsd
    subst hpos
    have hdropc : exts.drop i = exts.getD i ⟨0, 0⟩ :: exts.drop (i + 1) := by
      rw [List.getD_eq_getElem _ _ hlt]
      exact List.drop_eq_getElem_cons hlt
    have hsdi : SD (exts.getD i ⟨0, 0⟩ :: exts.drop (i + 1)) := by
      rw [← hdropc]; exact SD_drop exts i hsd
    by_cases hn : n = 0
    · subst hn
      simp only [ExtentStream.readLoop, if_pos rfl]
      exact ⟨by simp, by simp⟩
    by_cases hrem : b < (exts.getD i ⟨0, 0⟩).len
    · -- current extent: one inner read
      have hna : ExtentStream.next_area ⟨⟨data, (exts.getD i ⟨0, 0⟩).start + b⟩, (i, b), exts, outs⟩
          = .currentExtent ((exts.getD i ⟨0, 0⟩).len - b) :=
        next_area_eq_current _ hlt hrem
      simp only [ExtentStream.readLoop, if_neg hn, hna, Cursor.read]
      have hchunk : (data.drop ((exts.getD i ⟨0, 0⟩).start + b)).take
            (min n ((exts.getD i ⟨0, 0⟩).len - b))
          = ((data.drop ((exts.getD i ⟨0, 0⟩).start + b)).take
              ((exts.getD i ⟨0, 0⟩).len - b)).take n := by
        rw [List.take_take]
      rw [hchunk]
      set s := (data.drop ((exts.getD i ⟨0, 0⟩).start + b)).take ((exts.getD i ⟨0, 0⟩).len - b)
        with hs
      have hslen : s.length = min ((exts.getD i ⟨0, 0⟩).len - b)
          (data.length - ((exts.getD i ⟨0, 0⟩).start + b)) := by
        rw [hs]
        simp [List.length_take, List.length_drop]
      by_cases hk : (s.take n).length = 0
      · -- zero-length inner read: the data is exhausted here, and by
        -- sortedness every later extent is wholly past the data too
        rw [if_pos hk]
        have hkn : min n s.length = 0 := by
          simpa [List.length_take] using hk
        have hsl0 : s.length = 0 := by omega
        have hdl : data.length ≤ (exts.getD i ⟨0, 0⟩).start + b := by
          simp only [List.length_take, List.length_drop] at hslen
          omega
        have hrema : remAux (exts.drop (i + 1)) data = [] := by
          refine remAux_eq_nil _ _ (fun f hf => ?_)
          have := SD_le_of_mem hsdi hf
          omega
        have hrem0 : ExtentStream.remOf ⟨⟨data, (exts.getD i ⟨0, 0⟩).start + b⟩, (i, b), exts, outs⟩
            = [] := by
          simp only [ExtentStream.remOf]
          rw [← hs, hrema]
          simp [List.eq_nil_of_length_eq_zero hsl0]
        have hkz : (s.take n).length = 0 := hk
        have hremEs : ExtentStream.remOf ⟨⟨data, (exts.getD i ⟨0, 0⟩).start + b + (s.take n).length⟩,
            (i, b + (s.take n).length), exts, outs⟩ = [] := by
          rw [hkz]
          simp only [ExtentStream.remOf, Nat.add_zero]
          rw [hrema, List.append_nil, ← hs]
          exact List.eq_nil_of_length_eq_zero hsl0
        constructor
        · rw [hrem0]
          simp
        · show ExtentStream.remOf ⟨⟨data, (exts.getD i ⟨0, 0⟩).start + b + (s.take n).length⟩,
              (i, b + (s.take n).length), exts, outs⟩
            = (ExtentStream.remOf ⟨⟨data, (exts.getD i ⟨0, 0⟩).start + b⟩, (i, b), exts, outs⟩).drop n
          rw [hrem0, hremEs]
          simp
      · rw [if_neg hk]
        have hkmin : (s.take n).length = min n s.length := by simp [List.length_take]
        have hsle : s.length ≤ (exts.getD i ⟨0, 0⟩).len - b := by rw [hslen]; omega
        generalize hks : (s.take n).length = ks at hk hkmin ⊢
        have hw' : WFS ⟨⟨data, (exts.getD i ⟨0, 0⟩).start + b + ks⟩,
            (i, b + ks), exts, outs⟩ := by
          refine ⟨hne, houts, hlt, ?_, ?_⟩
          · show b + ks ≤ (exts.getD i ⟨0, 0⟩).len
            omega
          · show (exts.getD i ⟨0, 0⟩).start + b + ks
              = (exts.getD i ⟨0, 0⟩).start + (b + ks)
            omega
        obtain ⟨hbytes, hremres⟩ := ih _ (n - ks) hw'
          (by rw [← hdropc] at hsdi; exact hsd)
          (show fuel ≥ (n - ks) + (exts.length - i) + 1 by omega)
        have hremmid : ExtentStream.remOf ⟨⟨data, (exts.getD i ⟨0, 0⟩).start + b + ks⟩,
            (i, b + ks), exts, outs⟩
            = s.drop ks ++ remAux (exts.drop (i + 1)) data := by
          have e1 : (exts.getD i ⟨0, 0⟩).start + (b + ks)
              = (exts.getD i ⟨0, 0⟩).start + b + ks := by omega
          have e2 : (exts.getD i ⟨0, 0⟩).len - (b + ks)
              = (exts.getD i ⟨0, 0⟩).len - b - ks := by omega
          simp only [ExtentStream.remOf]
          rw [e1, e2, hs, List.drop_take, List.drop_drop]
        have hremfull : ExtentStream.remOf ⟨⟨data, (exts.getD i ⟨0, 0⟩).start + b⟩, (i, b), exts, outs⟩
            = s ++ remAux (exts.drop (i + 1)) data := by
          simp only [ExtentStream.remOf]
        constructor
        · rw [hbytes, hremmid, hremfull, hkmin]
          rw [take_glue s _ n]
          rw [List.take_append_eq_append_take]
        · rw [hremres, hremmid, hremfull, hkmin]
          rw [drop_glue s _ n]
          rw [List.drop_append_eq_append_drop]
    · -- cursor at the end of the current extent
      by_cases hnx : i + 1 < exts.length
      · have hna : ExtentStream.next_area ⟨⟨data, (exts.getD i ⟨0, 0⟩).start + b⟩, (i, b), exts, outs⟩
            = .nextExtent (i + 1) :=
          next_area_eq_next _ hlt (show (exts.getD i ⟨0, 0⟩).len ≤ b by omega) hnx
        simp only [ExtentStream.readLoop, if_neg hn, hna, set_cursor_snd]
        have hw' : WFS ⟨⟨data, (exts.getD (i + 1) ⟨0, 0⟩).start + 0⟩, (i + 1, 0), exts, outs⟩ := by
          refine ⟨hne, houts, hnx, ?_, rfl⟩
          show 0 ≤ (exts.getD (i + 1) ⟨0, 0⟩).len
          omega
        obtain ⟨hbytes, hremres⟩ := ih _ n hw' hsd
          (show fuel ≥ n + (exts.length - (i + 1)) + 1 by omega)
        have hdropc1 : exts.drop (i + 1) = exts.getD (i + 1) ⟨0, 0⟩ :: exts.drop (i + 2) := by
          rw [List.getD_eq_getElem _ _ hnx]
          exact List.drop_eq_getElem_cons hnx
        have hsame : ExtentStream.remOf ⟨⟨data, (exts.getD (i + 1) ⟨0, 0⟩).start + 0⟩, (i + 1, 0), exts, outs⟩
            = ExtentStream.remOf ⟨⟨data, (exts.getD i ⟨0, 0⟩).start + b⟩, (i, b), exts, outs⟩ := by
          simp only [ExtentStream.remOf]
          have hz : (exts.getD i ⟨0, 0⟩).len - b = 0 := by omega
          rw [hz]
          simp only [List.take_zero, List.nil_append]
          rw [hdropc1]
          simp only [remAux]
          have z1 : (exts.getD (i + 1) ⟨0, 0⟩).start + 0 = (exts.getD (i + 1) ⟨0, 0⟩).start := by omega
          have z2 : (exts.getD (i + 1) ⟨0, 0⟩).len - 0 = (exts.getD (i + 1) ⟨0, 0⟩).len := by omega
          rw [z1, z2]
        rw [hbytes, hremres, hsame]
        exact ⟨rfl, rfl⟩
      · have hna : ExtentStream.next_area ⟨⟨data, (exts.getD i ⟨0, 0⟩).start + b⟩, (i, b), exts, outs⟩
            = .none_ :=
          next_area_eq_none _ hlt (show (exts.getD i ⟨0, 0⟩).len ≤ b by omega) hnx
        simp only [ExtentStream.readLoop, if_neg hn, hna]
        have hdrop1 : exts.drop (i + 1) = [] := by
          rw [List.drop_eq_nil_iff]
          omega
        have hrem0 : ExtentStream.remOf ⟨⟨data, (exts.getD i ⟨0, 0⟩).start + b⟩, (i, b), exts, outs⟩
            = [] := by
          simp only [ExtentStream.remOf]
          have hz : (exts.getD i ⟨0, 0⟩).len - b = 0 := by omega
          rw [hz, hdrop1]
          simp [remAux]
        rw [hrem0]
        simp

lemma read_pres (es : ExtentStream) (n : Nat) (hw : WFS es) :
    PresRO es (es.read n).2 ∧ WFS (es.read n).2 ∧
    (es.read n).2.posOuter = es.posOuter + (es.read n).1.length ∧
    (es.read n).1.length ≤ n := by
  unfold ExtentStream.read
  exact readLoop_pres _ es n hw

lemma read_full (es : ExtentStream) (n : Nat) (hw : WFS es) (hsd : SD es.extents) :
    (es.read n).1 = es.remOf.take n ∧ (es.read n).2.remOf = es.remOf.drop n := by
  unfold ExtentStream.read
  exact readLoop_full _ es n hw hsd (by omega)

lemma write_spec (es : ExtentStream) (buf : List Nat) (hw : WFS es) :
    (es.write buf).1 = min buf.length (es.len - es.posOuter) ∧
    (es.write buf).2.extents = es.extents ∧
    (es.write buf).2.extents_outer = es.extents_outer ∧
    WFS (es.write buf).2 ∧
    (es.write buf).2.posOuter = es.posOuter + (es.write buf).1 ∧
    (es.write buf).2.inner.data
      = wsd es.inner.data (es.extents.drop es.cursor.1) es.cursor.2 buf := by
  unfold ExtentStream.write
  exact writeLoop_spec _ es buf hw (by omega)

lemma sumLens_append (a b : List Extent) : sumLens (a ++ b) = sumLens a + sumLens b := by
  simp [sumLens]

lemma remAux_length_le (exts : List Extent) (data : List Nat) :
    (remAux exts data).length ≤ sumLens exts := by
  induction exts with
  | nil => simp [remAux, sumLens]
  | cons e rest ih =>
    simp only [remAux, List.length_append, sumLens_cons, List.length_take]
    omega

/-- The remaining bytes never exceed the remaining logical capacity. -/
lemma remOf_length_le (es : ExtentStream) (hw : WFS es) :
    es.remOf.length ≤ es.len - es.posOuter := by
  obtain ⟨hne, houts, hlt, hble, hpos⟩ := hw
  have hsplit : sumLens es.extents
      = sumLens (es.extents.take (es.cursor.1 + 1)) + sumLens (es.extents.drop (es.cursor.1 + 1)) := by
    rw [← sumLens_append, List.take_append_drop]
  have hsucc := sumLens_take_succ es.extents es.cursor.1 hlt
  have hrest := remAux_length_le (es.extents.drop (es.cursor.1 + 1)) es.inner.data
  rw [len_eq_sumLens es houts, posOuter_eq es houts hlt]
  simp only [ExtentStream.remOf, List.length_append, List.length_take]
  omega

/-- The remaining bytes of a freshly positioned stream are the full extent
selection. -/
lemma remOf_fresh (es : ExtentStream) (hne : es.extents ≠ []) (hc : es.cursor = (0, 0)) :
    es.remOf = remAux es.extents es.inner.data := by
  have hlt : 0 < es.extents.length := List.length_pos.mpr hne
  have hdropc : es.extents.drop 0 = es.extents.getD 0 ⟨0, 0⟩ :: es.extents.drop 1 := by
    rw [List.getD_eq_getElem _ _ hlt]
    exact List.drop_eq_getElem_cons hlt
  simp only [ExtentStream.remOf, hc]
  rw [show es.extents = es.extents.drop 0 from rfl, hdropc]
  simp [remAux]

/-- Extent streams with well-formed outer offsets (the part of WFS a seek
needs; a Start seek re-establishes the cursor alignment by itself). -/
def WFO (es : ExtentStream) : Prop :=
  es.extents ≠ [] ∧ es.extents_outer = outerOf es.extents

instance (es : ExtentStream) : Decidable (WFO es) := by
  unfold WFO; infer_instance

lemma WFS.toWFO {es : ExtentStream} (hw : WFS es) : WFO es := ⟨hw.1, hw.2.1⟩

lemma getD_le_sumLens (exts : List Extent) (outs : List Nat) (h : outs = outerOf exts)
    (j : Nat) (hj : j ≤ exts.length) : outs.getD j 0 ≤ sumLens exts := by
  rw [h, outerOf_getD _ _ hj]
  have h1 := sumLens_take_le exts j exts.length hj
  have h2 := sumLens_take_all exts exts.length (Nat.le_refl _)
  omega

/-- The scan of find_cursor_outer finds the first extent whose outer range
contains the position, for positions strictly inside the stream. -/
lemma fcoAux_lt (exts : List Extent) (outs : List Nat) (h : outs = outerOf exts) (p : Nat)
    (hp : p < sumLens exts) :
    ∀ k i, i + k = exts.length → outs.getD i 0 ≤ p →
    ∃ j, fcoAux outs p i k = some (j, p - outs.getD j 0) ∧ i ≤ j ∧ j < exts.length ∧
      outs.getD j 0 ≤ p ∧ p < outs.getD (j + 1) 0 := by
  intro k
  induction k with
  | zero =>
    intro i hik hle
    exfalso
    have : outs.getD i 0 = sumLens exts := by
      rw [h, outerOf_getD _ _ (by omega), sumLens_take_all _ _ (by omega)]
    omega
  | succ k ih =>
    intro i hik hle
    by_cases hc : outs.getD i 0 ≤ p ∧ p < outs.getD (i + 1) 0
    · refine ⟨i, ?_, Nat.le_refl _, by omega, hc.1, hc.2⟩
      simp only [fcoAux, if_pos hc]
    · have hnext : outs.getD (i + 1) 0 ≤ p := by
        rcases Nat.lt_or_ge p (outs.getD (i + 1) 0) with hlt2 | hge
        · exact absurd ⟨hle, hlt2⟩ hc
        · exact hge
      obtain ⟨j, hfco, hij, hjl, hj1, hj2⟩ := ih (i + 1) (by omega) hnext
      refine ⟨j, ?_, by omega, hjl, hj1, hj2⟩
      simp only [fcoAux, if_neg hc]
      exact hfco

/-- The scan finds nothing at or past the logical end. -/
lemma fcoAux_none (exts : List Extent) (outs : List Nat) (h : outs = outerOf exts) (p : Nat)
    (hp : sumLens exts ≤ p) :
    ∀ k i, i + k ≤ exts.length → fcoAux outs p i k = none := by
  intro k
  induction k with
  | zero => intro i _; rfl
  | succ k ih =>
    intro i hik
    have hub : outs.getD (i + 1) 0 ≤ p := by
      have := getD_le_sumLens exts outs h (i + 1) (by omega)
      omega
    have hc : ¬(outs.getD i 0 ≤ p ∧ p < outs.getD (i + 1) 0) := by omega
    simp only [fcoAux, if_neg hc]
    exact ih (i + 1) (by omega)

lemma getLast_ext_eq_getD (exts : List Extent) (hne : exts ≠ []) :
    exts.getLast?.getD ⟨0, 0⟩ = exts.getD (exts.length - 1) ⟨0, 0⟩ := by
  have hlt : exts.length - 1 < exts.length := by
    have := List.length_pos.mpr hne
    omega
  rw [List.getLast?_eq_getElem?, List.getD_eq_getElem?_getD]

/-- Start seek to a position inside or at the end of the stream: succeeds,
returns the position, restores well-formedness and preserves everything
but the cursor. -/
lemma seekStart_spec (es : ExtentStream) (ho : WFO es) (p : Nat) (hle : p ≤ es.len) :
    (es.seekStart p).1 = .ok p ∧ WFS (es.seekStart p).2 ∧
    (es.seekStart p).2.posOuter = p ∧
    (es.seekStart p).2.extents = es.extents ∧
    (es.seekStart p).2.extents_outer = es.extents_outer ∧
    (es.seekStart p).2.inner.data = es.inner.data := by
  obtain ⟨hne, houts⟩ := ho
  have hlen : es.len = sumLens es.extents := len_eq_sumLens es houts
  have hLpos : 0 < es.extents.length := List.length_pos.mpr hne
  rcases Nat.lt_or_ge p es.len with hplt | hpge
  · -- strictly inside: the scan finds the extent
    obtain ⟨j, hfco, _, hjl, hj1, hj2⟩ :=
      fcoAux_lt es.extents es.extents_outer houts p (by omega) es.extents.length 0
        (by omega) (by rw [houts]; simp [outerOf, List.getD])
    have hfind : es.find_cursor_outer p = some (j, p - es.extents_outer.getD j 0) := by
      simp only [ExtentStream.find_cursor_outer, hfco]
    have hstep := outs_getD_succ es.extents es.extents_outer houts j hjl
    simp only [ExtentStream.seekStart, hfind, set_cursor_snd, set_cursor_fst]
    refine ⟨by rw [show es.extents_outer.getD j 0 + (p - es.extents_outer.getD j 0) = p by omega],
      ⟨hne, houts, hjl,
        (show p - es.extents_outer.getD j 0 ≤ (es.extents.getD j ⟨0, 0⟩).len by omega), rfl⟩,
      ?_, trivial, trivial, trivial⟩
    show es.extents_outer.getD j 0 + (p - es.extents_outer.getD j 0) = p
    omega
  · -- exactly at the end
    have hpe : p = es.len := by omega
    have hnone := fcoAux_none es.extents es.extents_outer houts p (by omega)
      es.extents.length 0 (by omega)
    have hfind : es.find_cursor_outer p
        = some (es.extents.length - 1, (es.extents.getLast?.getD ⟨0, 0⟩).len) := by
      simp only [ExtentStream.find_cursor_outer, hnone, if_pos hpe]
    have hlast := getLast_ext_eq_getD es.extents hne
    have hl1 : es.extents.length - 1 < es.extents.length := by omega
    have hstep := outs_getD_succ es.extents es.extents_outer houts (es.extents.length - 1) hl1
    have hgetL : es.extents_outer.getD (es.extents.length - 1 + 1) 0 = sumLens es.extents := by
      rw [houts, outerOf_getD _ _ (by omega), sumLens_take_all _ _ (by omega)]
    simp only [ExtentStream.seekStart, hfind, set_cursor_snd, set_cursor_fst, hlast]
    refine ⟨?_, ⟨hne, houts, hl1, Nat.le_refl _, rfl⟩, ?_, trivial, trivial, trivial⟩
    · show Except.ok (es.extents_outer.getD (es.extents.length - 1) 0
        + (es.extents.getD (es.extents.length - 1) ⟨0, 0⟩).len) = Except.ok p
      rw [hpe, hlen]
      congr 1
      omega
    · show es.extents_outer.getD (es.extents.length - 1) 0
        + (es.extents.getD (es.extents.length - 1) ⟨0, 0⟩).len = p
      rw [hpe, hlen]
      omega

/-- Start seek past the end of the stream: fails with InvalidInput and
leaves the stream untouched. -/
lemma seekStart_fail (es : ExtentStream) (ho : WFO es) (p : Nat) (hgt : es.len < p) :
    es.seekStart p = (.error .invalidInput, es) := by
  obtain ⟨hne, houts⟩ := ho
  have hlen : es.len = sumLens es.extents := len_eq_sumLens es houts
  have hnone := fcoAux_none es.extents es.extents_outer houts p (by omega)
    es.extents.length 0 (by omega)
  have hfind : es.find_cursor_outer p = none := by
    simp only [ExtentStream.find_cursor_outer, hnone, if_neg (by omega : ¬p = es.len)]
  simp only [ExtentStream.seekStart, hfind]

lemma calculate_rel_zero (pos : Nat) : calculate_rel 0 pos 0 = .ok pos := by
  simp [calculate_rel]

lemma calculate_rel_nonneg (pos : Nat) (off : Int) (h : 0 ≤ (pos : Int) + off) :
    calculate_rel 0 pos off = .ok ((pos : Int) + off).toNat := by
  simp only [calculate_rel]
  rw [if_pos]
  exact ⟨h, by simpa using h⟩

lemma calculate_rel_neg (pos : Nat) (off : Int) (h : (pos : Int) + off < 0) :
    calculate_rel 0 pos off = .error ((pos : Int) + off) := by
  simp only [calculate_rel]
  rw [if_neg]
  omega

lemma seek_start_eq (es : ExtentStream) (p : Nat) : es.seek (.start p) = es.seekStart p := rfl

/-- The stream length and outer offsets only depend on the extents_outer
field, so they transfer along PresRO. -/
lemma len_congr {a b : ExtentStream} (h : b.extents_outer = a.extents_outer) : b.len = a.len := by
  simp [ExtentStream.len, h]

/-- The inner-position clobbering on the End seek path. -/
lemma seek_fromEnd_eq (es : ExtentStream) (off : Int) :
    es.seek (.fromEnd off) =
      (match calculate_rel 0
          (min es.len (inner_len_outer es.extents es.inner.data.length)) off with
        | .ok p =>
          ExtentStream.seekStart { es with inner := { es.inner with pos := es.inner.data.length } } p
        | .error _ =>
          (.error .invalidInput, { es with inner := { es.inner with pos := es.inner.data.length } })) := rfl

lemma seek_current_eq (es : ExtentStream) (off : Int) :
    es.seek (.current off) =
      (match calculate_rel 0 es.posOuter off with
        | .ok p => es.seekStart p
        | .error _ => (.error .invalidInput, es)) := rfl

/-- End(0) seek: returns the effective end, the minimum of the logical
length and the projection of the inner length through the extent map. -/
lemma seek_end_zero (es : ExtentStream) (ho : WFO es) :
    (es.seek (.fromEnd 0)).1
      = .ok (min es.len (inner_len_outer es.extents es.inner.data.length)) := by
  rw [seek_fromEnd_eq, calculate_rel_zero]
  show (ExtentStream.seekStart { es with inner := { es.inner with pos := es.inner.data.length } }
      (min es.len (inner_len_outer es.extents es.inner.data.length))).1 = _
  exact (seekStart_spec { es with inner := { es.inner with pos := es.inner.data.length } }
    ⟨ho.1, ho.2⟩ _ (Nat.min_le_left _ _)).1

/-- End seek resolving to a negative position: InvalidInput. -/
lemma seek_end_neg (es : ExtentStream) (off : Int)
    (h : ((min es.len (inner_len_outer es.extents es.inner.data.length) : Nat) : Int) + off < 0) :
    (es.seek (.fromEnd off)).1 = .error .invalidInput := by
  rw [seek_fromEnd_eq, calculate_rel_neg _ _ h]

/-- Current seek resolving to a negative position: InvalidInput. -/
lemma seek_current_neg (es : ExtentStream) (off : Int)
    (h : ((es.posOuter : Nat) : Int) + off < 0) :
    (es.seek (.current off)).1 = .error .invalidInput := by
  rw [seek_current_eq, calculate_rel_neg _ _ h]

/-- read-to-end over an extent stream preserves structure and state
well-formedness whenever it returns. -/
lemma readToEndAux_pres (fuel : Nat) : ∀ (es : ExtentStream) (acc : List Nat), WFS es →
    PresRO es (readToEndAux esOps fuel es acc).2 ∧ WFS (readToEndAux esOps fuel es acc).2 := by
  induction fuel with
  | zero => intro es acc hw; exact ⟨PresRO.refl es, hw⟩
  | succ fuel ih =>
    intro es acc hw
    obtain ⟨hpres, hwf, _⟩ := read_pres es 8192 hw
    simp only [readToEndAux, esOps]
    by_cases hemp : (es.read 8192).1.isEmpty
    · rw [if_pos hemp]
      exact ⟨hpres, hwf⟩
    · rw [if_neg hemp]
      obtain ⟨hpres2, hwf2⟩ := ih (es.read 8192).2 (acc ++ (es.read 8192).1) hwf
      exact ⟨hpres.trans hpres2, hwf2⟩

/-- read-to-end over an extent stream returns exactly the remaining bytes,
given enough fuel for the loop to finish. -/
lemma readToEndAux_full (fuel : Nat) : ∀ (es : ExtentStream) (acc : List Nat),
    WFS es → SD es.extents → fuel ≥ es.remOf.length + 1 →
    (readToEndAux esOps fuel es acc).1 = .ok (acc ++ es.remOf) := by
  induction fuel with
  | zero => intro es acc _ _ hfuel; omega
  | succ fuel ih =>
    intro es acc hw hsd hfuel
    obtain ⟨hbytes, hremres⟩ := read_full es 8192 hw hsd
    obtain ⟨hpres, hwf, _⟩ := read_pres es 8192 hw
    simp only [readToEndAux, esOps]
    by_cases hemp : (es.read 8192).1.isEmpty
    · rw [if_pos hemp]
      have : es.remOf.take 8192 = [] := by rw [← hbytes]; simpa [List.isEmpty_iff] using hemp
      have hrnil : es.remOf = [] := by
        rcases List.take_eq_nil_iff.mp this with h | h
        · omega
        · exact h
      rw [hrnil]
      simp
    · rw [if_neg hemp]
      have hne2 : ¬es.remOf = [] := by
        intro hcon
        rw [hbytes, hcon] at hemp
        simp at hemp
      have hlen2 : (es.read 8192).2.remOf.length + 1 ≤ fuel := by
        rw [hremres]
        have h1 : es.remOf.length ≥ 1 := by
          cases hre : es.remOf with
          | nil => exact absurd hre hne2
          | cons a l => simp [hre]
        simp only [List.length_drop]
        omega
      have hsd2 : SD (es.read 8192).2.extents := by rw [hpres.1]; exact hsd
      have hgoal : (readToEndAux esOps fuel (es.read 8192).2 (acc ++ (es.read 8192).1)).1
          = Except.ok (acc ++ es.remOf) := by
        rw [ih (es.read 8192).2 (acc ++ (es.read 8192).1) hwf hsd2 hlen2]
        rw [hbytes, hremres, List.append_assoc, List.take_append_drop]
      exact hgoal

lemma writeAllLoop_nilbuf (fuel : Nat) (es : ExtentStream) :
    writeAllLoop fuel es [] = (.ok 0, es) := by
  cases fuel <;> rfl

lemma writeAllES_nil (es : ExtentStream) : writeAllES es [] = (.ok 0, es) := rfl

/-- A nonempty buffer against a stream with no remaining capacity fails
with WriteZero. -/
lemma writeAllLoop_cap0 (fuel : Nat) (es : ExtentStream) (buf : List Nat) (hw : WFS es)
    (hcap : es.len - es.posOuter = 0) (hne : ¬buf.isEmpty) :
    ∀ m, (writeAllLoop fuel es buf).1 ≠ .ok m := by
  intro m
  cases fuel with
  | zero =>
    simp only [writeAllLoop, if_neg hne]
    simp
  | succ fuel =>
    have hcnt := (write_spec es buf hw).1
    simp only [writeAllLoop, if_neg hne]
    cases hwr : es.write buf with
    | mk a es2 =>
      have h0 : a = 0 := by
        rw [hwr] at hcnt
        simp only at hcnt
        omega
      subst h0
      simp

/-- A successful write-all wrote the whole buffer, which therefore fits in
the remaining capacity; state bookkeeping carries over from the write. -/
lemma writeAllLoop_ok (fuel : Nat) (es : ExtentStream) (buf : List Nat) (n : Nat)
    (es' : ExtentStream) (hw : WFS es) (hok : writeAllLoop fuel es buf = (.ok n, es')) :
    n = buf.length ∧ buf.length ≤ es.len - es.posOuter ∧ WFS es' ∧
    es'.extents_outer = es.extents_outer ∧ es'.posOuter = es.posOuter + n := by
  by_cases hb : buf.isEmpty
  · have hbe : buf = [] := by simpa [List.isEmpty_iff] using hb
    subst hbe
    rw [writeAllLoop_nilbuf] at hok
    have h1 := congrArg Prod.fst hok
    have h2 := congrArg Prod.snd hok
    simp only at h1 h2
    have hn0 : 0 = n := (Except.ok.injEq _ _).mp h1
    subst hn0
    rw [← h2]
    simpa using hw
  · cases fuel with
    | zero =>
      simp only [writeAllLoop, if_neg hb] at hok
      exact absurd (congrArg Prod.fst hok) (by simp)
    | succ fuel => ?_
    obtain ⟨hcnt, hext, hout, hwf2, hadv, _⟩ := write_spec es buf hw
    simp only [writeAllLoop, if_neg hb] at hok
    cases hwr : es.write buf with
    | mk a es2 =>
      rw [hwr] at hcnt hext hout hwf2 hadv
      simp only at hcnt hext hout hwf2 hadv
      simp only [hwr] at hok
      cases a with
      | zero => simp at hok
      | succ a =>
        cases hrec : writeAllLoop fuel es2 (buf.drop (a + 1)) with
        | mk r es3 =>
          simp only [hrec] at hok
          cases r with
          | error e => simp at hok
          | ok m =>
            simp only at hok
            have h1 := congrArg Prod.fst hok
            have h2 := congrArg Prod.snd hok
            simp only at h1 h2
            have hn0 : a + 1 + m = n := (Except.ok.injEq _ _).mp h1
            rcases Nat.lt_or_ge (a + 1) buf.length with hlt | hge
            · -- partial accept: the capacity is exhausted and the retry fails
              exfalso
              have hcap2 : es2.len - es2.posOuter = 0 := by
                have hl2 : es2.len = es.len := len_congr hout
                omega
              have hne2 : ¬(buf.drop (a + 1)).isEmpty = true := by
                rw [List.isEmpty_iff_length_eq_zero]
                simp only [List.length_drop]
                omega
              have hz := writeAllLoop_cap0 fuel es2 (buf.drop (a + 1)) hwf2 hcap2 hne2 m
              rw [hrec] at hz
              simp at hz
            · -- full accept in one write
              have hdrop : buf.drop (a + 1) = [] := by
                apply List.drop_eq_nil_of_le
                omega
              rw [hdrop, writeAllLoop_nilbuf] at hrec
              have h3 := congrArg Prod.fst hrec
              have h4 := congrArg Prod.snd hrec
              simp only at h3 h4
              have hm0 : m = 0 := ((Except.ok.injEq _ _).mp h3).symm
              have hes3 : es' = es2 := by rw [← h2, ← h4]
              subst hes3
              refine ⟨by omega, by omega, hwf2, hout, by omega⟩

/-- writeAllLoop_ok at the wrapper's fuel. -/
lemma writeAllES_ok (es : ExtentStream) (buf : List Nat) (n : Nat) (es' : ExtentStream)
    (hw : WFS es) (hok : writeAllES es buf = (.ok n, es')) :
    n = buf.length ∧ buf.length ≤ es.len - es.posOuter ∧ WFS es' ∧
    es'.extents_outer = es.extents_outer ∧ es'.posOuter = es.posOuter + n :=
  writeAllLoop_ok buf.length es buf n es' hw hok

/-- A successful padded copy always writes exactly len bytes to a fresh
destination stream of logical length len. -/
lemma copy_padded_ok (src : List Nat × Bool) (dst : ExtentStream) (lenp total : Nat)
    (dst' : ExtentStream) (hw : WFS dst) (hpos : dst.posOuter = 0) (hlen : dst.len = lenp)
    (hok : copy_padded src dst lenp = (.ok total, dst')) : total = lenp := by
  unfold copy_padded ioCopy at hok
  cases hwa : writeAllES dst src.1 with
  | mk r1 dst1 =>
    simp only [hwa] at hok
    cases r1 with
    | error e => simp at hok
    | ok written =>
      by_cases hflag : src.2
      · simp only [if_pos hflag] at hok
        obtain ⟨hwlen, hwle, hwf1, hout1, hadv1⟩ := writeAllES_ok dst src.1 written dst1 hw hwa
        have hl1 : dst1.len = dst.len := len_congr hout1
        cases hwa2 : writeAllES dst1 (List.replicate (lenp - written) 0) with
        | mk r2 dst2 =>
          simp only [hwa2] at hok
          cases r2 with
          | error e => simp at hok
          | ok pad =>
            simp only at hok
            obtain ⟨hplen, hple, _, _, _⟩ :=
              writeAllES_ok dst1 (List.replicate (lenp - written) 0) pad dst2 hwf1 hwa2
            have htot : written + pad = total := by
              have h1 := congrArg Prod.fst hok
              simp only at h1
              exact (Except.ok.injEq _ _).mp h1
            rw [List.length_replicate] at hplen
            omega
      · simp only [if_neg hflag] at hok
        simp at hok

/-- ExtentStream::new on a nonempty extent list: the resulting stream and
its basic properties. -/
lemma new_spec (c : Cursor) (exts : List Extent) (es : ExtentStream)
    (hnew : ExtentStream.new c exts = some es) :
    es.extents = exts ∧ es.extents_outer = outerOf exts ∧ es.cursor = (0, 0) ∧
    es.inner.data = c.data ∧ WFS es ∧ es.posOuter = 0 ∧ es.len = sumLens exts := by
  unfold ExtentStream.new at hnew
  by_cases hemp : exts.isEmpty
  · rw [if_pos hemp] at hnew
    simp at hnew
  · rw [if_neg hemp] at hnew
    simp only [set_cursor_snd, Option.some.injEq] at hnew
    subst hnew
    have hne : exts ≠ [] := by simpa [List.isEmpty_iff] using hemp
    have hlt : 0 < exts.length := List.length_pos.mpr hne
    refine ⟨rfl, rfl, rfl, rfl, ⟨hne, rfl, hlt, Nat.zero_le _, rfl⟩, ?_, ?_⟩
    · show (outerOf exts).getD 0 0 + 0 = 0
      simp [outerOf, List.getD]
    · show (outerOf exts).getLast?.getD 0 = sumLens exts
      exact outerOf_getLast exts

lemma new_none_iff (c : Cursor) (exts : List Extent) :
    ExtentStream.new c exts = none ↔ exts = [] := by
  unfold ExtentStream.new
  by_cases hemp : exts.isEmpty
  · rw [if_pos hemp]
    simpa [List.isEmpty_iff] using hemp
  · rw [if_neg hemp]
    constructor
    · intro h; simp at h
    · intro h
      exact absurd (by simpa [List.isEmpty_iff] using h : exts.isEmpty = true) hemp

/-- check_hash over an in-memory cursor restores the position whenever it
reaches the comparison, i.e. on success and on digest mismatch. -/
lemma check_hash_cursor_pos (sha : List Nat → List Nat) (fuel : Nat) (c : Cursor)
    (expected : List Nat) (r : Except HashErr Unit) (c' : Cursor)
    (hrun : check_hash cursorOps sha fuel c expected = (r, c'))
    (hres : r = .ok () ∨ r = .error .mismatch) : c'.pos = c.pos := by
  have h1 : cursorOps.seek c (.current 0) = (.ok c.pos, { c with pos := c.pos }) := by
    simp [cursorOps, Cursor.seek, calculate_rel_zero]
  unfold check_hash at hrun
  simp only [h1] at hrun
  cases h2 : readToEnd cursorOps fuel { c with pos := c.pos } with
  | mk rr s2 =>
    simp only [h2] at hrun
    cases rr with
    | error e =>
      simp only at hrun
      have hr := congrArg Prod.fst hrun
      simp only at hr
      rcases hres with h | h <;> rw [h] at hr <;> simp at hr
    | ok bytes =>
      have h3 : cursorOps.seek s2 (.start c.pos) = (.ok c.pos, { s2 with pos := c.pos }) := by
        simp [cursorOps, Cursor.seek]
      simp only [h3] at hrun
      by_cases hcmp : sha bytes = expected
      · rw [if_pos hcmp] at hrun
        have hc := congrArg Prod.snd hrun
        simp only at hc
        rw [← hc]
      · rw [if_neg hcmp] at hrun
        have hc := congrArg Prod.snd hrun
        simp only at hc
        rw [← hc]

/-- check_hash over an extent stream restores the outer position whenever
it reaches the comparison, preserving well-formedness and the stream
structure. -/
lemma check_hash_es_pos (sha : List Nat → List Nat) (fuel : Nat) (es : ExtentStream)
    (expected : List Nat) (r : Except HashErr Unit) (es' : ExtentStream) (hw : WFS es)
    (hrun : check_hash esOps sha fuel es expected = (r, es'))
    (hres : r = .ok () ∨ r = .error .mismatch) :
    es'.posOuter = es.posOuter ∧ WFS es' ∧ PresRO es es' := by
  have hsp := seekStart_spec es hw.toWFO es.posOuter (posOuter_le_len es hw)
  have h1 : esOps.seek es (.current 0) = es.seekStart es.posOuter := by
    show es.seek (.current 0) = _
    rw [seek_current_eq, calculate_rel_zero]
  unfold check_hash at hrun
  rw [h1] at hrun
  cases hss : es.seekStart es.posOuter with
  | mk v s1 =>
    rw [hss] at hrun hsp
    simp only at hsp
    obtain ⟨hv, hwf1, hpos1, hext1, hout1, hdata1⟩ := hsp
    rw [hv] at hrun
    simp only at hrun
    cases h2 : readToEnd esOps fuel s1 with
    | mk rr s2 =>
      rw [h2] at hrun
      cases rr with
      | error e =>
        simp only at hrun
        have hr := congrArg Prod.fst hrun
        simp only at hr
        rcases hres with h | h <;> rw [h] at hr <;> simp at hr
      | ok bytes =>
        simp only at hrun
        obtain ⟨hpres2, hwf2⟩ := readToEndAux_pres fuel s1 [] hwf1
        have h2' : readToEndAux esOps fuel s1 [] = (.ok bytes, s2) := h2
        rw [h2'] at hpres2 hwf2
        have hlen2 : s2.len = es.len := by
          have e1 : s2.extents_outer = s1.extents_outer := hpres2.2.1
          have e2 : s1.extents_outer = es.extents_outer := hout1
          exact len_congr (e1.trans e2)
        have hle2 : es.posOuter ≤ s2.len := by
          rw [hlen2]
          exact posOuter_le_len es hw
        have hsp2 := seekStart_spec s2 hwf2.toWFO es.posOuter hle2
        have h3 : esOps.seek s2 (.start es.posOuter) = s2.seekStart es.posOuter := rfl
        rw [h3] at hrun
        cases hss2 : s2.seekStart es.posOuter with
        | mk v2 s3 =>
          rw [hss2] at hrun hsp2
          simp only at hsp2
          obtain ⟨hv2, hwf3, hpos3, hext3, hout3, hdata3⟩ := hsp2
          rw [hv2] at hrun
          simp only at hrun
          have hc : es' = s3 := by
            by_cases hcmp : sha bytes = expected
            · rw [if_pos hcmp] at hrun
              exact (congrArg Prod.snd hrun).symm
            · rw [if_neg hcmp] at hrun
              exact (congrArg Prod.snd hrun).symm
          subst hc
          refine ⟨hpos3, hwf3, ?_⟩
          have hp1 : PresRO es s1 := ⟨hext1, hout1, hdata1⟩
          have hp3 : PresRO s2 es' := ⟨hext3, hout3, hdata3⟩
          exact (hp1.trans hpres2).trans hp3

lemma listWrite_assoc (data : List Nat) (pos : Nat) (buf : List Nat) :
    listWrite data pos buf
      = data.take pos ++ (List.replicate (pos - data.length) 0 ++ (buf ++ data.drop (pos + buf.length))) := by
  simp [listWrite]

lemma take_getD_lt (l : List Nat) (n i : Nat) (h : i < n) : (l.take n).getD i 0 = l.getD i 0 := by
  rw [List.getD_eq_getElem?_getD, List.getD_eq_getElem?_getD, List.getElem?_take_of_lt h]

lemma drop_getD (l : List Nat) (n m : Nat) : (l.drop n).getD m 0 = l.getD (n + m) 0 := by
  rw [List.getD_eq_getElem?_getD, List.getD_eq_getElem?_getD, List.getElem?_drop]

lemma replicate_getD (n j : Nat) : (List.replicate n (0 : Nat)).getD j 0 = 0 := by
  rcases Nat.lt_or_ge j n with h | h
  · rw [List.getD_eq_getElem?_getD, List.getElem?_replicate_of_lt h]
    rfl
  · rw [List.getD_eq_getElem?_getD, List.getElem?_eq_none_iff.mpr (by simpa using h)]
    rfl

/-- Bytes before the written window are untouched (indices past the end of
the original data read as the zero fill, matching the zero default). -/
lemma listWrite_getD_lt (data : List Nat) (pos : Nat) (buf : List Nat) (j : Nat) (hj : j < pos) :
    (listWrite data pos buf).getD j 0 = data.getD j 0 := by
  rw [listWrite_assoc, List.getD_eq_getElem?_getD]
  have htl : (data.take pos).length = min pos data.length := by simp
  rcases Nat.lt_or_ge j data.length with hjd | hjd
  · rw [List.getElem?_append_left (by omega), List.getElem?_take_of_lt hj]
    rw [List.getD_eq_getElem?_getD]
  · rw [List.getElem?_append_right (by omega)]
    rw [List.getElem?_append_left (by simp [htl]; omega)]
    rw [List.getElem?_replicate_of_lt (by simp [htl]; omega)]
    rw [List.getD_eq_getElem?_getD, List.getElem?_eq_none_iff.mpr (by simpa using hjd)]
    rfl

/-- Bytes inside the written window come from the buffer. -/
lemma listWrite_getD_mid (data : List Nat) (pos : Nat) (buf : List Nat) (j : Nat)
    (hj1 : pos ≤ j) (hj2 : j < pos + buf.length) :
    (listWrite data pos buf).getD j 0 = buf.getD (j - pos) 0 := by
  rw [listWrite_assoc, List.getD_eq_getElem?_getD]
  have htl : (data.take pos).length = min pos data.length := by simp
  have hab : (data.take pos).length + (List.replicate (pos - data.length) (0 : Nat)).length = pos := by
    simp [htl]
    omega
  rw [List.getElem?_append_right (by omega)]
  rw [List.getElem?_append_right (by simp [htl]; omega)]
  rw [List.getElem?_append_left (by simp [htl]; omega)]
  rw [List.getD_eq_getElem?_getD]
  congr 2
  simp [htl]
  omega

/-- Bytes after the written window are untouched. -/
lemma listWrite_getD_ge (data : List Nat) (pos : Nat) (buf : List Nat) (j : Nat)
    (hj : pos + buf.length ≤ j) :
    (listWrite data pos buf).getD j 0 = data.getD j 0 := by
  rw [listWrite_assoc, List.getD_eq_getElem?_getD]
  have htl : (data.take pos).length = min pos data.length := by simp
  rw [List.getElem?_append_right (by omega)]
  rw [List.getElem?_append_right (by simp [htl]; omega)]
  rw [List.getElem?_append_right (by simp [htl]; omega)]
  rw [List.getElem?_drop, List.getD_eq_getElem?_getD]
  congr 2
  simp [htl]
  omega

lemma lookupScatter_shift (exts : List Extent) : ∀ (acc j : Nat),
    lookupScatter exts acc j = (lookupScatter exts 0 j).map (acc + ·) := by
  induction exts with
  | nil => intro acc j; rfl
  | cons e rest ih =>
    intro acc j
    by_cases hin : e.start ≤ j ∧ j < e.start + e.len
    · simp only [lookupScatter, if_pos hin, Option.map_some]
      show some (acc + (j - e.start)) = some (acc + (0 + (j - e.start)))
      congr 1
      omega
    · simp only [lookupScatter, if_neg hin]
      rw [ih (acc + e.len), ih (0 + e.len)]
      cases lookupScatter rest 0 j with
      | none => rfl
      | some w =>
        show some (acc + e.len + w) = some (acc + (0 + e.len + w))
        congr 1
        omega

lemma lookupScatter_none_of_before (exts : List Extent) : ∀ (acc j : Nat),
    (∀ f ∈ exts, j < f.start) → lookupScatter exts acc j = none := by
  induction exts with
  | nil => intro acc j _; rfl
  | cons e rest ih =>
    intro acc j h
    have he := h e (List.mem_cons_self e rest)
    simp only [lookupScatter, if_neg (by omega : ¬(e.start ≤ j ∧ j < e.start + e.len))]
    exact ih (acc + e.len) j (fun f hf => h f (List.mem_cons_of_mem e hf))

lemma lookupScatter_none_of_zero (exts : List Extent) (h : sumLens exts = 0) : ∀ (acc j : Nat),
    lookupScatter exts acc j = none := by
  induction exts with
  | nil => intro acc j; rfl
  | cons e rest ih =>
    intro acc j
    rw [sumLens_cons] at h
    simp only [lookupScatter,
      if_neg (by omega : ¬(e.start ≤ j ∧ j < e.start + e.len))]
    exact ih (by omega) (acc + e.len) j

/-- Element-wise characterization of the reference scatter function: each
inner index either receives the buffer byte its extent maps there, or
keeps the original data byte. -/
lemma wsd_getD (exts : List Extent) : ∀ (data W : List Nat), SD exts → W.length = sumLens exts →
    ∀ j, (wsd data exts 0 W).getD j 0
      = match lookupScatter exts 0 j with
        | some w => W.getD w 0
        | none => data.getD j 0 := by
  induction exts with
  | nil =>
    intro data W _ _ j
    simp [wsd, lookupScatter]
  | cons e rest ih =>
    intro data W hsd hlen j
    rw [sumLens_cons] at hlen
    by_cases hW : W.isEmpty
    · have hWnil : W = [] := by simpa [List.isEmpty_iff] using hW
      subst hWnil
      simp only [List.length_nil] at hlen
      rw [wsd_nil_buf]
      rw [lookupScatter_none_of_zero (e :: rest) (by rw [sumLens_cons]; omega) 0 j]
    · have hWlen : ¬W.length = 0 := by simpa [List.isEmpty_iff_length_eq_zero] using hW
      by_cases hez : e.len = 0
      · -- empty extent: skipped by the write and never matched by lookup
        have hk0 : min W.length (e.len - 0) = 0 := by omega
        rw [wsd_cons, if_neg hW, if_pos hk0]
        have hlook : lookupScatter (e :: rest) 0 j = lookupScatter rest 0 j := by
          simp only [lookupScatter, if_neg (by omega : ¬(e.start ≤ j ∧ j < e.start + e.len))]
          rw [hez]
        rw [hlook]
        exact ih data W (SD_tail hsd) (by omega) j
      · -- productive extent: e.len bytes written at e.start
        have hk : min W.length (e.len - 0) = e.len := by omega
        have hkne : ¬min W.length (e.len - 0) = 0 := by omega
        rw [wsd_cons, if_neg hW, if_neg hkne, hk]
        simp only [Nat.add_zero]
        have htklen : (W.take e.len).length = e.len := by simp; omega
        have ihres := ih (listWrite data e.start (W.take e.len)) (W.drop e.len)
          (SD_tail hsd) (by simp; omega) j
        rw [ihres]
        by_cases hin : e.start ≤ j ∧ j < e.start + e.len
        · have hlookr : lookupScatter rest 0 j = none := by
            refine lookupScatter_none_of_before rest 0 j (fun f hf => ?_)
            have := SD_le_of_mem hsd hf
            omega
          rw [hlookr]
          simp only [lookupScatter, if_pos hin]
          rw [listWrite_getD_mid data e.start (W.take e.len) j hin.1 (by omega)]
          rw [take_getD_lt W e.len (j - e.start) (by omega)]
          simp
        · simp only [lookupScatter, if_neg hin]
          rw [lookupScatter_shift rest (0 + e.len)]
          cases hlr : lookupScatter rest 0 j with
          | some w =>
            simp only [Option.map_some]
            rw [drop_getD]
            simp
          | none =>
            simp only [Option.map_none]
            rcases Nat.lt_or_ge j e.start with hlt | hge
            · exact listWrite_getD_lt data e.start (W.take e.len) j hlt
            · exact listWrite_getD_ge data e.start (W.take e.len) j (by omega)

/-- Start seek to exactly the logical end positions the cursor at the end
of the last extent. -/
lemma seekStart_end_cursor (es : ExtentStream) (ho : WFO es) :
    (es.seekStart es.len).2.cursor
      = (es.extents.length - 1, (es.extents.getLast?.getD ⟨0, 0⟩).len) := by
  obtain ⟨hne, houts⟩ := ho
  have hlen : es.len = sumLens es.extents := len_eq_sumLens es houts
  have hnone := fcoAux_none es.extents es.extents_outer houts es.len (by omega)
    es.extents.length 0 (by omega)
  have hfind : es.find_cursor_outer es.len
      = some (es.extents.length - 1, (es.extents.getLast?.getD ⟨0, 0⟩).len) := by
    simp only [ExtentStream.find_cursor_outer, hnone]
    rw [if_pos trivial]
  simp only [ExtentStream.seekStart, hfind, set_cursor_snd]

/-- Validity of a raw extent for conversion. -/
def validRaw (e : RawExtent) : Prop :=
  e.start_block ≠ none ∧ e.start_block ≠ some U64_MAX ∧ e.num_blocks ≠ none

instance (e : RawExtent) : Decidable (validRaw e) := by
  unfold validRaw; infer_instance

lemma convert_extent_ok (e : RawExtent) (bs : Nat) (hv : validRaw e) :
    convert_extent e bs = .ok ⟨bs * e.start_block.getD 0, bs * e.num_blocks.getD 0⟩ := by
  obtain ⟨h1, h2, h3⟩ := hv
  cases hsb : e.start_block with
  | none => exact absurd hsb h1
  | some sb =>
    cases hnb : e.num_blocks with
    | none => exact absurd hnb h3
    | some nb =>
      unfold convert_extent
      rw [if_neg h2, hsb, hnb]
      rfl

lemma convert_extent_err (e : RawExtent) (bs : Nat)
    (hv : e.start_block = none ∨ e.start_block = some U64_MAX ∨ e.num_blocks = none) :
    ∃ err, convert_extent e bs = .error err := by
  unfold convert_extent
  by_cases hsp : e.start_block = some U64_MAX
  · exact ⟨.sparseHole, by rw [if_pos hsp]⟩
  · rw [if_neg hsp]
    cases hsb : e.start_block with
    | none => exact ⟨.missingStartBlock, rfl⟩
    | some sb =>
      cases hnb : e.num_blocks with
      | none => exact ⟨.missingNumBlocks, rfl⟩
      | some nb =>
        rcases hv with h | h | h
        · rw [hsb] at h; cases h
        · exact absurd h hsp
        · rw [hnb] at h; cases h

lemma convertCollect_ok (bs : Nat) (l : List RawExtent) (hv : ∀ e ∈ l, validRaw e) :
    convertCollect bs l
      = .ok (l.map (fun e => ⟨bs * e.start_block.getD 0, bs * e.num_blocks.getD 0⟩)) := by
  induction l with
  | nil => rfl
  | cons e rest ih =>
    have he := hv e (List.mem_cons_self e rest)
    simp only [convertCollect, convert_extent_ok e bs he,
      ih (fun f hf => hv f (List.mem_cons_of_mem e hf))]
    rfl

lemma convertCollect_err (bs : Nat) (l : List RawExtent) (e : RawExtent) (hmem : e ∈ l)
    (hbad : e.start_block = none ∨ e.start_block = some U64_MAX ∨ e.num_blocks = none) :
    ∃ err, convertCollect bs l = .error err := by
  induction l with
  | nil => simp at hmem
  | cons f rest ih =>
    rcases List.mem_cons.mp hmem with rfl | hmem'
    · obtain ⟨err, herr⟩ := convert_extent_err e bs hbad
      exact ⟨err, by simp only [convertCollect, herr]⟩
    · cases hcf : convert_extent f bs with
      | error err => exact ⟨err, by simp only [convertCollect, hcf]⟩
      | ok c =>
        obtain ⟨err, herr⟩ := ih hmem'
        exact ⟨err, by simp only [convertCollect, hcf, herr]⟩

/-- A successful Start seek leaves a well-formed stream. -/
lemma seekStart_ok_WFS (es : ExtentStream) (ho : WFO es) (p : Nat) (r : Nat)
    (es' : ExtentStream) (hok : es.seekStart p = (.ok r, es')) : WFS es' := by
  rcases le_or_lt p es.len with hle | hgt
  · have hs := seekStart_spec es ho p hle
    have he : es' = (es.seekStart p).2 := (congrArg Prod.snd hok).symm
    rw [he]
    exact hs.2.1
  · rw [seekStart_fail es ho p hgt] at hok
    have hf := congrArg Prod.fst hok
    simp at hf

/-- A successful seek of any kind leaves a well-formed stream. -/
lemma seek_ok_WFS (es : ExtentStream) (hw : WFS es) (sf : SeekFrom) (r : Nat)
    (es' : ExtentStream) (hok : es.seek sf = (.ok r, es')) : WFS es' := by
  cases sf with
  | start p => exact seekStart_ok_WFS es hw.toWFO p r es' hok
  | fromEnd off =>
    rw [seek_fromEnd_eq] at hok
    cases hcr : calculate_rel 0
        (min es.len (inner_len_outer es.extents es.inner.data.length)) off with
    | ok p =>
      simp only [hcr] at hok
      exact seekStart_ok_WFS { es with inner := { es.inner with pos := es.inner.data.length } }
        ⟨hw.1, hw.2.1⟩ p r es' hok
    | error e =>
      simp only [hcr] at hok
      have hf := congrArg Prod.fst hok
      simp at hf
  | current off =>
    rw [seek_current_eq] at hok
    cases hcr : calculate_rel 0 es.posOuter off with
    | ok p =>
      simp only [hcr] at hok
      exact seekStart_ok_WFS es hw.toWFO p r es' hok
    | error e =>
      simp only [hcr] at hok
      have hf := congrArg Prod.fst hok
      simp at hf

/-- Inversion of a successful process_op run: the operation type decoded,
the destination extents converted, the destination stream was built, and
the dispatch succeeded, with the destination stream's logical length as
dst_len and its final inner stream as the returned cursor. -/
lemma process_op_ok_inv (ctx : ProcCtx) (skip_hash : Bool) (bs : Nat) (op : InstallOperation)
    (data : Cursor) (src : Option Cursor) (dst : Cursor) (fuel : Nat) (c : Cursor) (total : Nat)
    (hok : process_op ctx skip_hash bs op data src dst fuel = .ok (c, total)) :
    ∃ t srcS dataS dstExts dstS dstS',
      OperationType.tryFrom op.type = some t ∧
      convert_extents op.dst_extents bs = .ok dstExts ∧
      ExtentStream.new dst dstExts = some dstS ∧
      dispatchOp ctx t fuel srcS dataS dstS dstS.len = .ok (dstS', total) ∧
      c = dstS'.inner := by
  unfold process_op at hok
  cases htf : OperationType.tryFrom op.type with
  | none => simp only [htf] at hok; exact Except.noConfusion hok
  | some t =>
    simp only [htf] at hok
    cases hbs : buildSrcStream src op.src_extents bs with
    | error e => simp only [hbs] at hok; exact Except.noConfusion hok
    | ok srcS =>
      simp only [hbs] at hok
      cases hdv : convert_extents op.dst_extents bs with
      | error e => simp only [hdv] at hok; exact Except.noConfusion hok
      | ok dstExts =>
        simp only [hdv] at hok
        cases hnew : ExtentStream.new dst dstExts with
        | none => simp only [hnew] at hok; exact Except.noConfusion hok
        | some dstS =>
          simp only [hnew] at hok
          cases hch : checkHashes ctx skip_hash op fuel srcS
              (buildDataStream data op.data_offset op.data_length) with
          | error e => simp only [hch] at hok; exact Except.noConfusion hok
          | ok p =>
            obtain ⟨srcS', dataS'⟩ := p
            simp only [hch] at hok
            cases hdi : dispatchOp ctx t fuel srcS' dataS' dstS dstS.len with
            | error e => simp only [hdi] at hok; exact Except.noConfusion hok
            | ok q =>
              obtain ⟨dstS', total'⟩ := q
              simp only [hdi] at hok
              have h1 : (dstS'.inner, total') = (c, total) := (Except.ok.injEq _ _).mp hok
              have h2 : total' = total := congrArg Prod.snd h1
              refine ⟨t, srcS', dataS', dstExts, dstS, dstS', rfl, rfl, hnew, ?_, ?_⟩
              · rw [hdi, h2]
              · exact (congrArg Prod.fst h1).symm

/-- The Replace, ReplaceBz, ReplaceXz, Zero and SourceCopy dispatch arms
write exactly dst_len bytes when they succeed on a fresh destination
stream whose logical length is dst_len: each of them funnels its bytes
through copy_padded. -/
lemma dispatchOp_padded_total (ctx : ProcCtx) (t : OperationType) (fuel : Nat)
    (srcS dataS : Option ExtentStream) (dstS dstS' : ExtentStream) (dst_len total : Nat)
    (hw : WFS dstS) (hpos : dstS.posOuter = 0) (hlen : dstS.len = dst_len)
    (hp : t = .replace ∨ t = .replaceBz ∨ t = .replaceXz ∨ t = .zero ∨ t = .sourceCopy)
    (hok : dispatchOp ctx t fuel srcS dataS dstS dst_len = .ok (dstS', total)) :
    total = dst_len := by
  rcases hp with rfl | rfl | rfl | rfl | rfl
  · cases dataS with
    | none => simp only [dispatchOp] at hok; exact Except.noConfusion hok
    | some ds =>
      cases hrte : readToEnd esOps fuel ds with
      | mk r s2 =>
        cases r with
        | error e => simp only [dispatchOp, hrte] at hok; exact Except.noConfusion hok
        | ok bytes =>
          cases hcp : copy_padded (bytes, true) dstS dst_len with
          | mk rc dc =>
            cases rc with
            | error e => simp only [dispatchOp, hrte, hcp] at hok; exact Except.noConfusion hok
            | ok tot =>
              simp only [dispatchOp, hrte, hcp] at hok
              have h1 : (dc, tot) = (dstS', total) := (Except.ok.injEq _ _).mp hok
              have h2 : tot = total := congrArg Prod.snd h1
              rw [← h2]
              exact copy_padded_ok (bytes, true) dstS dst_len tot dc hw hpos hlen hcp
  · cases dataS with
    | none => simp only [dispatchOp] at hok; exact Except.noConfusion hok
    | some ds =>
      cases hrte : readToEnd esOps fuel ds with
      | mk r s2 =>
        cases r with
        | error e => simp only [dispatchOp, hrte] at hok; exact Except.noConfusion hok
        | ok bytes =>
          cases hcp : copy_padded (ctx.bz bytes) dstS dst_len with
          | mk rc dc =>
            cases rc with
            | error e => simp only [dispatchOp, hrte, hcp] at hok; exact Except.noConfusion hok
            | ok tot =>
              simp only [dispatchOp, hrte, hcp] at hok
              have h1 : (dc, tot) = (dstS', total) := (Except.ok.injEq _ _).mp hok
              have h2 : tot = total := congrArg Prod.snd h1
              rw [← h2]
              exact copy_padded_ok (ctx.bz bytes) dstS dst_len tot dc hw hpos hlen hcp
  · cases dataS with
    | none => simp only [dispatchOp] at hok; exact Except.noConfusion hok
    | some ds =>
      cases hrte : readToEnd esOps fuel ds with
      | mk r s2 =>
        cases r with
        | error e => simp only [dispatchOp, hrte] at hok; exact Except.noConfusion hok
        | ok bytes =>
          cases hcp : copy_padded (ctx.xz bytes) dstS dst_len with
          | mk rc dc =>
            cases rc with
            | error e => simp only [dispatchOp, hrte, hcp] at hok; exact Except.noConfusion hok
            | ok tot =>
              simp only [dispatchOp, hrte, hcp] at hok
              have h1 : (dc, tot) = (dstS', total) := (Except.ok.injEq _ _).mp hok
              have h2 : tot = total := congrArg Prod.snd h1
              rw [← h2]
              exact copy_padded_ok (ctx.xz bytes) dstS dst_len tot dc hw hpos hlen hcp
  · cases hcp : copy_padded ([], true) dstS dst_len with
    | mk rc dc =>
      cases rc with
      | error e => simp only [dispatchOp, hcp] at hok; exact Except.noConfusion hok
      | ok tot =>
        simp only [dispatchOp, hcp] at hok
        have h1 : (dc, tot) = (dstS', total) := (Except.ok.injEq _ _).mp hok
        have h2 : tot = total := congrArg Prod.snd h1
        rw [← h2]
        exact copy_padded_ok ([], true) dstS dst_len tot dc hw hpos hlen hcp
  · cases srcS with
    | none => simp only [dispatchOp] at hok; exact Except.noConfusion hok
    | some ss =>
      cases hrte : readToEnd esOps fuel ss with
      | mk r s2 =>
        cases r with
        | error e => simp only [dispatchOp, hrte] at hok; exact Except.noConfusion hok
        | ok bytes =>
          cases hcp : copy_padded (bytes, true) dstS dst_len with
          | mk rc dc =>
            cases rc with
            | error e => simp only [dispatchOp, hrte, hcp] at hok; exact Except.noConfusion hok
            | ok tot =>
              simp only [dispatchOp, hrte, hcp] at hok
              have h1 : (dc, tot) = (dstS', total) := (Except.ok.injEq _ _).mp hok
              have h2 : tot = total := congrArg Prod.snd h1
              rw [← h2]
              exact copy_padded_ok (bytes, true) dstS dst_len tot dc hw hpos hlen hcp

/-- The four test extents of the repository's unit tests. -/
def exExtents : List Extent := [⟨0, 3⟩, ⟨5, 2⟩, ⟨7, 3⟩, ⟨20, 5⟩]

/-- Inner bytes b_i = 2 * i + 1 for i < 35. -/
def exData35 : List Nat := (List.range 35).map (fun i => 2 * i + 1)

/-- A fresh extent stream over the odd bytes. -/
def exRead : ExtentStream :=
  ⟨⟨exData35, 0⟩, (0, 0), exExtents, [0, 3, 5, 8, 13]⟩

/-- A fresh extent stream over a zeroed 25-byte buffer. -/
def exWriteES : ExtentStream :=
  ⟨⟨List.replicate 25 0, 0⟩, (0, 0), exExtents, [0, 3, 5, 8, 13]⟩

/-- The thirteen bytes scattered in the write test. -/
def exW13 : List Nat := [1, 3, 5, 7, 9, 11, 13, 15, 17, 19, 21, 23, 25]

/-- A single extent (10, 20) over a 27-byte inner stream. -/
def exShort : ExtentStream :=
  ⟨⟨List.replicate 27 0, 0⟩, (0, 0), [⟨10, 20⟩], [0, 20]⟩

/-- The test stream positioned at its very end. -/
def exEnd : ExtentStream :=
  ⟨⟨exData35, 25⟩, (3, 5), exExtents, [0, 3, 5, 8, 13]⟩

/-- C3: a Start(p) seek on a well-formed extent stream succeeds returning p
exactly when p is at most the logical length outer[n]; any successful
Start(p) seek returns p; seeking to exactly outer[n] places the cursor at
the end of the last extent; past the end the seek fails with InvalidInput
and leaves the stream unchanged. -/
theorem claim_C3 (es : ExtentStream) (p : Nat) (hw : WFS es) :
    ((es.seek (.start p)).1 = .ok p ↔ p ≤ es.len) ∧
    (∀ r, (es.seek (.start p)).1 = .ok r → r = p) ∧
    (p = es.len → (es.seek (.start p)).2.cursor
      = (es.extents.length - 1, (es.extents.getLast?.getD ⟨0, 0⟩).len)) ∧
    (es.len < p → es.seek (.start p) = (.error .invalidInput, es)) := by
  rw [seek_start_eq]
  rcases le_or_lt p es.len with hle | hgt
  · have hs := seekStart_spec es hw.toWFO p hle
    refine ⟨⟨fun _ => hle, fun _ => hs.1⟩, ?_, ?_, ?_⟩
    · intro r hr
      rw [hs.1] at hr
      exact ((Except.ok.injEq _ _).mp hr).symm
    · intro hpe
      subst hpe
      exact seekStart_end_cursor es hw.toWFO
    · intro hcon
      exact absurd hcon (by omega)
  · have hf := seekStart_fail es hw.toWFO p hgt
    rw [hf]
    refine ⟨⟨fun hcon => by simp at hcon, fun hcon => absurd hcon (by omega)⟩, ?_, ?_, fun _ => rfl⟩
    · intro r hr
      simp at hr
    · intro hpe
      exact absurd hpe (by omega)

/-- Witness for C3 on the test stream of length 13: a seek to 13 succeeds
iff 13 is within the length, and a seek to 14 fails untouched. -/
theorem claim_C3_witness :
    ((exRead.seek (.start 13)).1 = .ok 13 ↔ 13 ≤ exRead.len) ∧
    exRead.seek (.start 14) = (.error .invalidInput, exRead) :=
  ⟨(claim_C3 exRead 13 (by decide)).1,
   (claim_C3 exRead 14 (by decide)).2.2.2 (by decide)⟩

/-- C4: an End(0) seek returns the effective end, the minimum of the
logical length and the inner length projected through the extent map; an
End or Current seek whose resolved position is negative fails with
InvalidInput; on a single extent (10, 20) over a 27-byte inner stream the
effective end is 17. -/
theorem claim_C4 (es : ExtentStream) (hw : WFO es) :
    ((es.seek (.fromEnd 0)).1
      = .ok (min es.len (inner_len_outer es.extents es.inner.data.length))) ∧
    (∀ off : Int,
      ((min es.len (inner_len_outer es.extents es.inner.data.length) : Nat) : Int) + off < 0 →
      (es.seek (.fromEnd off)).1 = .error .invalidInput) ∧
    (∀ off : Int, ((es.posOuter : Nat) : Int) + off < 0 →
      (es.seek (.current off)).1 = .error .invalidInput) ∧
    (exShort.seek (.fromEnd 0)).1 = .ok 17 :=
  ⟨seek_end_zero es hw, fun off h => seek_end_neg es off h,
   fun off h => seek_current_neg es off h, by decide⟩

/-- Witness for C4 on the short-inner stream: End(0) resolves to 17 and an
End seek reaching below zero fails. -/
theorem claim_C4_witness :
    (exShort.seek (.fromEnd 0)).1 = .ok 17 ∧
    (exShort.seek (.fromEnd (-18))).1 = .error .invalidInput :=
  ⟨((claim_C4 exShort (by decide)).1).trans (by decide),
   (claim_C4 exShort (by decide)).2.1 (-18) (by decide)⟩

/-- C5: reading a fresh well-formed extent stream with sorted-disjoint
extents to EOF yields exactly the concatenation of the extent slices of
the inner bytes, each slice truncated where the inner bytes run out; on
the test extents over the odd bytes this is the thirteen listed bytes. -/
theorem claim_C5 (es : ExtentStream) (fuel : Nat) (hw : WFS es) (hsd : SD es.extents)
    (hc : es.cursor = (0, 0)) (hf : es.len + 2 ≤ fuel) :
    (readToEnd esOps fuel es).1 = .ok (remAux es.extents es.inner.data) ∧
    (readToEnd esOps 15 exRead).1
      = .ok [1, 3, 5, 11, 13, 15, 17, 19, 41, 43, 45, 47, 49] := by
  have hgen : ∀ (es2 : ExtentStream) (fuel2 : Nat), WFS es2 → SD es2.extents →
      es2.cursor = (0, 0) → es2.len + 2 ≤ fuel2 →
      (readToEnd esOps fuel2 es2).1 = .ok (remAux es2.extents es2.inner.data) := by
    intro es2 fuel2 hw2 hsd2 hc2 hf2
    have h1 := remOf_length_le es2 hw2
    have h2 := readToEndAux_full fuel2 es2 [] hw2 hsd2 (by omega)
    have h3 : (readToEnd esOps fuel2 es2).1 = .ok ([] ++ es2.remOf) := h2
    rw [h3, List.nil_append, remOf_fresh es2 hw2.1 hc2]
  exact ⟨hgen es fuel hw hsd hc hf,
    (hgen exRead 15 (by decide) (by decide) (by decide) (by decide)).trans (by decide)⟩

/-- Witness for C5: the read-to-end of the test stream, with the
hypotheses checked on the concrete stream. -/
theorem claim_C5_witness :
    (readToEnd esOps 15 exRead).1 = .ok (remAux exRead.extents exRead.inner.data) ∧
    (readToEnd esOps 15 exRead).1
      = .ok [1, 3, 5, 11, 13, 15, 17, 19, 41, 43, 45, 47, 49] :=
  claim_C5 exRead 15 (by decide) (by decide) (by decide) (by decide)

/-- C6: writing a buffer whose length is the logical length into a fresh
well-formed extent stream over a zeroed inner buffer accepts the whole
buffer and scatters it: an inner byte that lies inside extent i holds the
buffer byte at the corresponding outer index, and every gap byte stays
zero; on the test extents, writing the thirteen odd bytes into a zeroed
25-byte buffer gives the listed contents. -/
theorem claim_C6 (es : ExtentStream) (W : List Nat) (L : Nat) (hw : WFS es)
    (hsd : SD es.extents) (hc : es.cursor = (0, 0)) (hlen : W.length = es.len)
    (hdata : es.inner.data = List.replicate L 0) :
    (es.write W).1 = W.length ∧
    (∀ j, ((es.write W).2.inner.data).getD j 0
      = match lookupScatter es.extents 0 j with
        | some w => W.getD w 0
        | none => 0) ∧
    (exWriteES.write exW13).2.inner.data
      = [1, 3, 5, 0, 0, 7, 9, 11, 13, 15, 0, 0, 0, 0, 0, 0, 0, 0, 0, 0, 17, 19, 21, 23, 25] := by
  have h1 : es.cursor.1 = 0 := by rw [hc]
  have h2 : es.cursor.2 = 0 := by rw [hc]
  have hpos : es.posOuter = 0 := by
    simp only [ExtentStream.posOuter, h1, h2, hw.2.1, outerOf]
    simp [List.getD]
  obtain ⟨hcnt, _, _, _, _, hdata'⟩ := write_spec es W hw
  refine ⟨?_, ?_, by decide⟩
  · rw [hcnt, hpos, Nat.sub_zero, ← hlen]
    exact Nat.min_self _
  · intro j
    have hWs : W.length = sumLens es.extents := by
      rw [hlen]
      exact len_eq_sumLens es hw.2.1
    have h3 := wsd_getD es.extents es.inner.data W hsd hWs j
    rw [hdata', h1, h2, List.drop_zero, h3]
    cases hls : lookupScatter es.extents 0 j with
    | some w => simp only [hls]
    | none =>
      simp only [hls]
      rw [hdata, replicate_getD]

/-- Witness for C6 on the test write: the accepted count and the scattered
buffer. -/
theorem claim_C6_witness :
    (exWriteES.write exW13).1 = exW13.length ∧
    (exWriteES.write exW13).2.inner.data
      = [1, 3, 5, 0, 0, 7, 9, 11, 13, 15, 0, 0, 0, 0, 0, 0, 0, 0, 0, 0, 17, 19, 21, 23, 25] := by
  have h := claim_C6 exWriteES exW13 25 (by decide) (by decide) (by decide) (by decide) (by decide)
  exact ⟨h.1, h.2.2⟩

/-- C7: extent conversion rejects a zero block size, rejects a raw extent
missing start_block or num_blocks and a start_block of u64::MAX (sparse
hole), and on valid input succeeds, mapping each raw extent in order to
(start_block * block_size, num_blocks * block_size); the listed raw
extents with block size 3 give the listed extents. -/
theorem claim_C7 (l : List RawExtent) (bs : Nat) :
    convert_extents l 0 = .error .zeroBlockSize ∧
    (bs ≠ 0 → (∀ e ∈ l, validRaw e) →
      convert_extents l bs
        = .ok (l.map (fun e => ⟨bs * e.start_block.getD 0, bs * e.num_blocks.getD 0⟩))) ∧
    (bs ≠ 0 → ∀ e ∈ l,
      (e.start_block = none ∨ e.start_block = some U64_MAX ∨ e.num_blocks = none) →
      ∃ err, convert_extents l bs = .error err) ∧
    convert_extents [⟨some 0, some 4⟩, ⟨some 6, some 5⟩, ⟨some 20, some 13⟩, ⟨some 80, some 100⟩] 3
      = .ok [⟨0, 12⟩, ⟨18, 15⟩, ⟨60, 39⟩, ⟨240, 300⟩] := by
  refine ⟨rfl, ?_, ?_, by decide⟩
  · intro hbs hv
    unfold convert_extents
    rw [if_neg hbs]
    exact convertCollect_ok bs l hv
  · intro hbs e hmem hbad
    obtain ⟨err, herr⟩ := convertCollect_err bs l e hmem hbad
    refine ⟨err, ?_⟩
    unfold convert_extents
    rw [if_neg hbs]
    exact herr

/-- Witness for C7: the valid-input conversion applied to the four test
raw extents at block size 3. -/
theorem claim_C7_witness :
    convert_extents [⟨some 0, some 4⟩, ⟨some 6, some 5⟩, ⟨some 20, some 13⟩, ⟨some 80, some 100⟩] 3
      = .ok ([⟨some 0, some 4⟩, ⟨some 6, some 5⟩, ⟨some 20, some 13⟩,
          (⟨some 80, some 100⟩ : RawExtent)].map
          (fun e => ⟨3 * e.start_block.getD 0, 3 * e.num_blocks.getD 0⟩)) :=
  (claim_C7 [⟨some 0, some 4⟩, ⟨some 6, some 5⟩, ⟨some 20, some 13⟩, ⟨some 80, some 100⟩] 3).2.1
    (by decide) (by decide)

/-- C10: reads and writes at or past the logical end return Ok with a
short count, never an out-of-range error: at the very end a read returns
no bytes and a write accepts zero bytes; in general a write accepts
exactly the minimum of the buffer length and the remaining capacity, and
a read returns at most the requested bytes, advancing the outer position
by exactly the bytes returned. -/
theorem claim_C10 (es : ExtentStream) (n : Nat) (buf : List Nat) (hw : WFS es) :
    (es.posOuter = es.len → (es.read n).1 = [] ∧ (es.write buf).1 = 0) ∧
    (es.write buf).1 = min buf.length (es.len - es.posOuter) ∧
    (es.read n).1.length ≤ n ∧
    (es.read n).2.posOuter = es.posOuter + (es.read n).1.length := by
  obtain ⟨hpres, hwf, hadv, hle⟩ := read_pres es n hw
  obtain ⟨hcnt, _, _, _, _, _⟩ := write_spec es buf hw
  refine ⟨?_, hcnt, hle, hadv⟩
  intro hend
  constructor
  · have hp1 : (es.read n).2.posOuter ≤ (es.read n).2.len := posOuter_le_len _ hwf
    have hp2 : (es.read n).2.len = es.len := len_congr hpres.2.1
    have hp3 : (es.read n).1.length = 0 := by omega
    exact List.eq_nil_of_length_eq_zero hp3
  · rw [hcnt, hend, Nat.sub_self, Nat.min_zero]

/-- Witness for C10 at the end of the test stream: a 4-byte read returns
nothing and a 2-byte write accepts nothing. -/
theorem claim_C10_witness :
    (exEnd.read 4).1 = [] ∧ (exEnd.write [9, 9]).1 = 0 :=
  (claim_C10 exEnd 4 [9, 9] (by decide)).1 (by decide)

/-- C9: the cursor-alignment invariant after successful operations on a
well-formed stream: after any read, any write, and any successful seek,
the inner position equals the cursor extent's start plus the in-extent
byte offset, and the byte offset is at most that extent's length. -/
theorem claim_C9 (es : ExtentStream) (hw : WFS es) :
    (∀ n, (es.read n).2.inner.pos
        = ((es.read n).2.extents.getD (es.read n).2.cursor.1 ⟨0, 0⟩).start
          + (es.read n).2.cursor.2
      ∧ (es.read n).2.cursor.2
        ≤ ((es.read n).2.extents.getD (es.read n).2.cursor.1 ⟨0, 0⟩).len) ∧
    (∀ buf, (es.write buf).2.inner.pos
        = ((es.write buf).2.extents.getD (es.write buf).2.cursor.1 ⟨0, 0⟩).start
          + (es.write buf).2.cursor.2
      ∧ (es.write buf).2.cursor.2
        ≤ ((es.write buf).2.extents.getD (es.write buf).2.cursor.1 ⟨0, 0⟩).len) ∧
    (∀ sf r es', es.seek sf = (.ok r, es') →
      es'.inner.pos = (es'.extents.getD es'.cursor.1 ⟨0, 0⟩).start + es'.cursor.2
      ∧ es'.cursor.2 ≤ (es'.extents.getD es'.cursor.1 ⟨0, 0⟩).len) := by
  refine ⟨?_, ?_, ?_⟩
  · intro n
    obtain ⟨_, hwf, _, _⟩ := read_pres es n hw
    exact ⟨hwf.2.2.2.2, hwf.2.2.2.1⟩
  · intro buf
    obtain ⟨_, _, _, hwf, _, _⟩ := write_spec es buf hw
    exact ⟨hwf.2.2.2.2, hwf.2.2.2.1⟩
  · intro sf r es' hok
    have hwf : WFS es' := seek_ok_WFS es hw sf r es' hok
    exact ⟨hwf.2.2.2.2, hwf.2.2.2.1⟩

/-- Witness for C9: the alignment equation after a 4-byte read of the test
stream. -/
theorem claim_C9_witness :
    (exRead.read 4).2.inner.pos
      = ((exRead.read 4).2.extents.getD (exRead.read 4).2.cursor.1 ⟨0, 0⟩).start
        + (exRead.read 4).2.cursor.2 :=
  (((claim_C9 exRead (by decide)).1) 4).1

/-- C2 (amended): check_hash restores the stream's logical position on
success and on digest mismatch, for the in-memory cursor and for a
well-formed extent stream; an I/O failure along the way propagates
immediately and skips the restoring seek, so the position guarantee is
limited to the non-I/O outcomes. -/
theorem claim_C2 :
    (∀ (c : Cursor) (sha : List Nat → List Nat) (fuel : Nat) (expected : List Nat)
      (r : Except HashErr Unit) (c' : Cursor),
      check_hash cursorOps sha fuel c expected = (r, c') →
      r = .ok () ∨ r = .error .mismatch → c'.pos = c.pos) ∧
    (∀ (es : ExtentStream) (sha : List Nat → List Nat) (fuel : Nat) (expected : List Nat)
      (r : Except HashErr Unit) (es' : ExtentStream), WFS es →
      check_hash esOps sha fuel es expected = (r, es') →
      r = .ok () ∨ r = .error .mismatch → es'.posOuter = es.posOuter) :=
  ⟨fun c sha fuel expected r c' hrun hres =>
      check_hash_cursor_pos sha fuel c expected r c' hrun hres,
   fun es sha fuel expected r es' hw hrun hres =>
      (check_hash_es_pos sha fuel es expected r es' hw hrun hres).1⟩

/-- Witness for C2: a successful digest check over a two-byte cursor
starting at position 1 ends back at position 1, and over the fresh test
extent stream ends at outer position 0. -/
theorem claim_C2_witness :
    check_hash cursorOps (fun _ => []) 5 ⟨[5, 6], 1⟩ [] = (.ok (), ⟨[5, 6], 1⟩) ∧
    (⟨[5, 6], 1⟩ : Cursor).pos = (⟨[5, 6], 1⟩ : Cursor).pos ∧
    check_hash esOps (fun _ => []) 20 exRead [] = (.ok (), exRead) ∧
    exRead.posOuter = exRead.posOuter :=
  ⟨by decide,
   claim_C2.1 ⟨[5, 6], 1⟩ (fun _ => []) 5 [] (.ok ()) ⟨[5, 6], 1⟩ (by decide) (Or.inl rfl),
   by decide,
   claim_C2.2 exRead (fun _ => []) 20 [] (.ok ()) exRead (by decide) (by decide) (Or.inl rfl)⟩

/-- A readable and seekable stream that yields four bytes and then fails
with an I/O error, as a device error mid-file does; only the position is
tracked. -/
structure BadStream where
  pos : Nat
  deriving DecidableEq

/-- StreamOps for BadStream: the first read returns [1, 2, 3, 4] and moves
the position to 4, any later read fails; seeks resolve like a cursor's. -/
def badOps : StreamOps BadStream where
  read := fun s _ => if s.pos = 0 then (.ok [1, 2, 3, 4], ⟨4⟩) else (.error .other, s)
  seek := fun s sf =>
    match sf with
    | .start p => (.ok p, ⟨p⟩)
    | .fromEnd off =>
      match calculate_rel 0 s.pos off with
      | .ok p => (.ok p, ⟨p⟩)
      | .error _ => (.error .invalidInput, s)
    | .current off =>
      match calculate_rel 0 s.pos off with
      | .ok p => (.ok p, ⟨p⟩)
      | .error _ => (.error .invalidInput, s)

/-- Counterexample to C2 as stated: on an I/O failure mid-hash, check_hash
returns with the stream position not restored: starting at position 0 the
failing run ends at position 4. -/
theorem claim_C2_counterexample :
    check_hash badOps (fun _ => []) 3 ⟨0⟩ [] = (.error (.io .other), ⟨4⟩) ∧
    (⟨4⟩ : BadStream).pos ≠ (⟨0⟩ : BadStream).pos := by
  exact ⟨by decide, by decide⟩

/-- A concrete collaborator set: empty digest, identity bz and xz
decoders, and a patch engine that writes nothing and reports success. -/
def ctx0 : ProcCtx :=
  ⟨fun _ => [], fun l => (l, true), fun l => (l, true), fun s d _ => (.ok 0, s, d)⟩

/-- A Zero operation over a two-block destination. -/
def opZero : InstallOperation := ⟨6, none, none, none, none, [], [⟨some 0, some 2⟩]⟩

/-- A SourceBsdiff operation with an empty patch over a two-block
destination. -/
def opBsdiff : InstallOperation :=
  ⟨5, some 0, some 0, none, none, [⟨some 0, some 1⟩], [⟨some 0, some 2⟩]⟩

/-- A Discard operation with no destination extents. -/
def opDiscard : InstallOperation := ⟨7, none, none, none, none, [], []⟩

/-- An operation with a numeric type outside the enumeration. -/
def opBad : InstallOperation := ⟨99, none, none, none, none, [], []⟩

/-- The destination extent stream of the two-byte examples. -/
def exDstS : ExtentStream := ⟨⟨[0, 0], 0⟩, (0, 0), [⟨0, 2⟩], [0, 2]⟩

/-- C1 (amended): a successfully executed operation whose arm funnels its
bytes through copy_padded (Replace, ReplaceBz, ReplaceXz, Zero,
SourceCopy) writes exactly dst_len bytes to the destination extent
stream, dst_len being the logical length of the stream over the converted
destination extents; the SourceBsdiff and BrotliBsdiff arms hand the
destination to the patch engine with no zero-padding, so the equality
does not extend to them (see the counterexample). -/
theorem claim_C1 (ctx : ProcCtx) (skip_hash : Bool) (bs : Nat) (op : InstallOperation)
    (data : Cursor) (src : Option Cursor) (dst : Cursor) (fuel : Nat) (c : Cursor)
    (total : Nat) (t : OperationType) (dstExts : List Extent) (dstS : ExtentStream)
    (ht : OperationType.tryFrom op.type = some t)
    (hp : t = .replace ∨ t = .replaceBz ∨ t = .replaceXz ∨ t = .zero ∨ t = .sourceCopy)
    (hdv : convert_extents op.dst_extents bs = .ok dstExts)
    (hnew : ExtentStream.new dst dstExts = some dstS)
    (hok : process_op ctx skip_hash bs op data src dst fuel = .ok (c, total)) :
    total = dstS.len := by
  obtain ⟨t2, srcS, dataS, dstExts2, dstS2, dstS', ht2, hdv2, hnew2, hdi, _⟩ :=
    process_op_ok_inv ctx skip_hash bs op data src dst fuel c total hok
  rw [ht] at ht2
  have ht3 : t = t2 := (Option.some.injEq _ _).mp ht2
  subst ht3
  rw [hdv] at hdv2
  have hdv3 : dstExts = dstExts2 := (Except.ok.injEq _ _).mp hdv2
  subst hdv3
  rw [hnew] at hnew2
  have hnew3 : dstS = dstS2 := (Option.some.injEq _ _).mp hnew2
  subst hnew3
  obtain ⟨_, _, _, _, hwS, hposS, _⟩ := new_spec dst dstExts dstS hnew
  exact dispatchOp_padded_total ctx t fuel srcS dataS dstS dstS' dstS.len total
    hwS hposS rfl hp hdi

/-- Witness for C1: a Zero operation on a two-byte destination reports two
bytes written, and the theorem equates that with the destination length. -/
theorem claim_C1_witness :
    process_op ctx0 true 1 opZero ⟨[], 0⟩ none ⟨[0, 0], 0⟩ 1 = .ok (⟨[0, 0], 2⟩, 2) ∧
    (2 : Nat) = exDstS.len :=
  ⟨by decide,
   claim_C1 ctx0 true 1 opZero ⟨[], 0⟩ none ⟨[0, 0], 0⟩ 1 ⟨[0, 0], 2⟩ 2 .zero [⟨0, 2⟩] exDstS
     (by decide) (Or.inr (Or.inr (Or.inr (Or.inl rfl)))) (by decide) (by decide) (by decide)⟩

/-- Counterexample to C1 as stated: a SourceBsdiff operation that succeeds
with a patch engine writing zero bytes reports zero bytes written to a
destination of logical length two, so no zero-padding followed the patch. -/
theorem claim_C1_counterexample :
    process_op ctx0 true 1 opBsdiff ⟨[], 0⟩ (some ⟨[9], 0⟩) ⟨[0, 0], 0⟩ 3
      = .ok (⟨[0, 0], 0⟩, 0) ∧
    convert_extents opBsdiff.dst_extents 1 = .ok [⟨0, 2⟩] ∧
    ExtentStream.new ⟨[0, 0], 0⟩ [⟨0, 2⟩] = some exDstS ∧
    exDstS.len = 2 ∧ (0 : Nat) ≠ 2 :=
  ⟨by decide, by decide, by decide, by decide, by decide⟩

/-- The operation types the dispatch recognizes but rejects. -/
def isUnsupported (t : OperationType) : Prop :=
  t = .discard ∨ t = .move ∨ t = .bsdiff ∨ t = .puffdiff ∨ t = .zucchini ∨
    t = .lz4diffBsdiff ∨ t = .lz4diffPuffdiff

/-- C8 (amended): an operation whose numeric type is outside the
enumeration fails with InvalidOperationType before anything else; a
recognized type among Discard, Move, Bsdiff, Puffdiff, Zucchini,
Lz4diffBsdiff, Lz4diffPuffdiff always dispatches to UnsupportedOperation
and its operation never succeeds, though an earlier stage may fail first
with a different error (see the counterexample). -/
theorem claim_C8 (ctx : ProcCtx) (skip_hash : Bool) (bs : Nat) (op : InstallOperation)
    (data : Cursor) (src : Option Cursor) (dst : Cursor) (fuel : Nat) :
    (OperationType.tryFrom op.type = none →
      process_op ctx skip_hash bs op data src dst fuel = .error .invalidOperationType) ∧
    (∀ t, OperationType.tryFrom op.type = some t → isUnsupported t →
      (∀ srcS dataS dstS dst_len,
        dispatchOp ctx t fuel srcS dataS dstS dst_len = .error .unsupportedOperation) ∧
      ∀ v, process_op ctx skip_hash bs op data src dst fuel ≠ .ok v) := by
  constructor
  · intro h
    unfold process_op
    rw [h]
  · intro t ht hu
    unfold isUnsupported at hu
    have hdisp : ∀ srcS dataS dstS dst_len,
        dispatchOp ctx t fuel srcS dataS dstS dst_len = .error .unsupportedOperation := by
      rcases hu with rfl | rfl | rfl | rfl | rfl | rfl | rfl <;>
        (intro srcS dataS dstS dst_len; rfl)
    refine ⟨hdisp, ?_⟩
    rintro ⟨c, total⟩ hok
    obtain ⟨t2, srcS, dataS, dstExts, dstS, dstS', ht2, _, _, hdi, _⟩ :=
      process_op_ok_inv ctx skip_hash bs op data src dst fuel c total hok
    rw [ht] at ht2
    have ht3 : t = t2 := (Option.some.injEq _ _).mp ht2
    subst ht3
    rw [hdisp srcS dataS dstS dstS.len] at hdi
    exact Except.noConfusion hdi

/-- Witness for C8: type code 99 is rejected as InvalidOperationType, and
the Discard dispatch arm is rejected as UnsupportedOperation. -/
theorem claim_C8_witness :
    process_op ctx0 true 1 opBad ⟨[], 0⟩ none ⟨[0, 0], 0⟩ 1 = .error .invalidOperationType ∧
    dispatchOp ctx0 .discard 1 none none exDstS 2 = .error .unsupportedOperation :=
  ⟨(claim_C8 ctx0 true 1 opBad ⟨[], 0⟩ none ⟨[0, 0], 0⟩ 1).1 (by decide),
   ((claim_C8 ctx0 true 1 opDiscard ⟨[], 0⟩ none ⟨[], 0⟩ 1).2 .discard (by decide)
     (Or.inl rfl)).1 none none exDstS 2⟩

/-- Counterexample to C8 as stated: a Discard operation with no
destination extents fails with MissingDstExtents, not
UnsupportedOperation: the stream-building stage runs before the dispatch
rejects the type. -/
theorem claim_C8_counterexample :
    OperationType.tryFrom opDiscard.type = some .discard ∧
    process_op ctx0 true 1 opDiscard ⟨[], 0⟩ none ⟨[], 0⟩ 1 = .error .missingDstExtents ∧
    (.error .missingDstExtents : Except OpError (Cursor × Nat))
      ≠ (.error .unsupportedOperation : Except OpError (Cursor × Nat)) :=
  ⟨by decide, by decide, by decide⟩
